import Mathlib

/-!
Verification of the step-generation engines, move validation and game session
of the sorting-algorithm visualizer / quiz game.

Arrays of the JavaScript source are modelled as `List Int`; every engine is
translated function-by-function from its source file:

* bubble sort        (`js/algorithms/bubbleSort`-style file)
* selection sort     (selection-sort file)
* insertion sort     (insertion-sort file)
* merge sort         (`sorting-visualizer/js/algorithms/mergeSort.js`)
* quick sort         (`js/algorithms/quickSort.js`)
* heap sort          (`js/algorithms/heapSort.js`)
* game manager       (`js/game/gameManager.js`)

Step records keep every field of the JavaScript object except the
human-readable `description` string, which is display-only.  A step's
`indices` are `Int` because the source can record the index `n - 1 = -1`
on an empty input (selection sort), and `values` are `Option Int` because
reading a JavaScript array out of range yields `undefined`.
-/

/-- Step kinds, from the StepType enum of the shared base file. -/
inductive StepType where
  | compare
  | swap
  | divide
  | merge
  | sorted
  | select
  | insert
  | pivot
deriving DecidableEq, Repr

/-- One recorded step.  `description` (display-only text) is omitted. -/
structure Step where
  type : StepType
  indices : List Int
  values : List (Option Int)
  arrayState : List Int
  isUserAction : Bool
deriving DecidableEq, Repr

/-- Reading `arrayState[i]` in JavaScript: `undefined` (here `none`) when the
index is negative or past the end. -/
def jsGet (a : List Int) (i : Int) : Option Int :=
  if i < 0 then none else a.get? i.toNat

/-- Translation of `SortingAlgorithm.createStep`: `values` is
`indices.map (i => arrayState[i])` and the snapshot is a copy of the array
as it stands when the step is created. -/
def createStep (t : StepType) (indices : List Int) (arrayState : List Int)
    (isUserAction : Bool) : Step :=
  { type := t
    indices := indices
    values := indices.map (jsGet arrayState)
    arrayState := arrayState
    isUserAction := isUserAction }

/-- The destructuring swap `[arr[i], arr[j]] = [arr[j], arr[i]]` (both reads
happen before both writes).  Every use in the engines is in range. -/
def swapJS (a : List Int) (i j : Nat) : List Int :=
  (a.set i (a.getD j 0)).set j (a.getD i 0)

/-- Translation of `getOptimalSwapCount`: the number of swap-kind steps. -/
def getOptimalSwapCount (steps : List Step) : Nat :=
  (steps.filter (fun s => s.type = StepType.swap)).length

/-- Translation of `getUserActionCount`. -/
def getUserActionCount (steps : List Step) : Nat :=
  (steps.filter (fun s => s.isUserAction)).length

/-- A run of trailing sorted marks for indices `i, i+1, ..., m-1`, all
snapshotting the same array; this loop shape occurs in bubble sort's
early-exit branch and in the final sweeps of insertion, quick and merge
sort. -/
def sortedMarks (a : List Int) (i m : Nat) : List Step :=
  if _h : i < m then
    createStep StepType.sorted [(i : Int)] a false :: sortedMarks a (i + 1) m
  else []
termination_by m - i

/-! ### Bubble sort (`BubbleSort.generateSteps`) -/

/-- Inner pass of bubble sort: `for (j = 0; j < m; j++)` where `m = n - i - 1`;
returns the emitted steps, the mutated array and the `swapped` flag. -/
def bubbleScan (a : List Int) (j m : Nat) (sw : Bool) :
    List Step × List Int × Bool :=
  if _h : j < m then
    let cmp := createStep StepType.compare [(j : Int), (j : Int) + 1] a false
    if a.getD j 0 > a.getD (j + 1) 0 then
      let st := createStep StepType.swap [(j : Int), (j : Int) + 1] a true
      let r := bubbleScan (swapJS a j (j + 1)) (j + 1) m true
      (cmp :: st :: r.1, r.2)
    else
      let r := bubbleScan a (j + 1) m sw
      (cmp :: r.1, r.2)
  else ([], a, sw)
termination_by m - j

/-- Outer loop of bubble sort: passes `i = 0, 1, ...` while `i < n - 1`,
with the early-exit branch that marks the remaining positions sorted. -/
def bubbleOuter (a : List Int) (i n : Nat) : List Step × List Int :=
  if _h : i < n - 1 then
    let r := bubbleScan a 0 (n - 1 - i) false
    let ps := createStep StepType.sorted [((n - 1 - i : Nat) : Int)] r.2.1 false
    if r.2.2 then
      let rest := bubbleOuter r.2.1 (i + 1) n
      (r.1 ++ ps :: rest.1, rest.2)
    else
      (r.1 ++ ps :: sortedMarks r.2.1 0 (n - 1 - i), r.2.1)
  else ([], a)
termination_by n - 1 - i

/-- Translation of `BubbleSort.generateSteps`; returns the trace together
with the final state of the engine's working array. -/
def bubbleGenerateSteps (a : List Int) : List Step × List Int :=
  let r := bubbleOuter a 0 a.length
  match r.1.getLast? with
  | none => r
  | some last =>
    if last.indices.getD 0 0 ≠ 0 then
      (r.1 ++ [createStep StepType.sorted [0] r.2 false], r.2)
    else r

/-! ### Selection sort (`SelectionSort.generateSteps`) -/

/-- Minimum-finding loop of selection sort, scanning `j = j, ..., n-1` with
current minimum index `minIdx`; returns the steps and the final minimum
index. -/
def selFind (a : List Int) (minIdx j n : Nat) : List Step × Nat :=
  if _h : j < n then
    let cmp := createStep StepType.compare [(minIdx : Int), (j : Int)] a false
    if a.getD j 0 < a.getD minIdx 0 then
      let sel := createStep StepType.select [(j : Int)] a false
      let r := selFind a j (j + 1) n
      (cmp :: sel :: r.1, r.2)
    else
      let r := selFind a minIdx (j + 1) n
      (cmp :: r.1, r.2)
  else ([], minIdx)
termination_by n - j

/-- Outer loop of selection sort over `i = 0, ..., n-2`. -/
def selOuter (a : List Int) (i n : Nat) : List Step × List Int :=
  if _h : i < n - 1 then
    let s0 := createStep StepType.select [(i : Int)] a false
    let f := selFind a i (i + 1) n
    if f.2 ≠ i then
      let sw := createStep StepType.swap [(i : Int), (f.2 : Int)] a true
      let a2 := swapJS a i f.2
      let so := createStep StepType.sorted [(i : Int)] a2 false
      let rest := selOuter a2 (i + 1) n
      (s0 :: (f.1 ++ sw :: so :: rest.1), rest.2)
    else
      let so := createStep StepType.sorted [(i : Int)] a false
      let rest := selOuter a (i + 1) n
      (s0 :: (f.1 ++ so :: rest.1), rest.2)
  else ([], a)
termination_by n - 1 - i

/-- Translation of `SelectionSort.generateSteps`.  Note the unconditional
final mark at index `n - 1`, which is `-1` on an empty input. -/
def selectionGenerateSteps (a : List Int) : List Step × List Int :=
  let r := selOuter a 0 a.length
  (r.1 ++ [createStep StepType.sorted [(a.length : Int) - 1] r.2 false], r.2)

/-! ### Insertion sort (`InsertionSort.generateSteps`)

The JS loop variable `j` runs from `i - 1` down to (possibly) `-1`; we use
the natural number `k = j + 1`, so the loop guard `j >= 0 && arr[j] > key`
becomes `1 ≤ k ∧ arr[k-1] > key` and the shift writes positions `k` and
`k - 1`. -/

/-- Shifting loop of insertion sort; returns steps, the mutated array and the
final `k = j + 1`. -/
def insLoop (a : List Int) (k : Nat) (key : Int) :
    List Step × List Int × Nat :=
  if _h : 1 ≤ k ∧ a.getD (k - 1) 0 > key then
    let cmp := createStep StepType.compare [(k : Int) - 1, (k : Int)] a false
    let sw := createStep StepType.swap [(k : Int) - 1, (k : Int)] a true
    let a1 := a.set k (a.getD (k - 1) 0)
    let a2 := a1.set (k - 1) key
    let r := insLoop a2 (k - 1) key
    (cmp :: sw :: r.1, r.2)
  else ([], a, k)
termination_by k

/-- Outer loop of insertion sort over `i = 1, ..., n-1`. -/
def insOuter (a : List Int) (i n : Nat) : List Step × List Int :=
  if _h : i < n then
    let key := a.getD i 0
    let sel := createStep StepType.select [(i : Int)] a false
    let r := insLoop a i key
    let noShift : List Step :=
      if r.2.2 = i then
        [createStep StepType.compare [(i : Int) - 1, (i : Int)] r.2.1 false]
      else []
    let ins := createStep StepType.insert [(r.2.2 : Int)] r.2.1 false
    let rest := insOuter r.2.1 (i + 1) n
    (sel :: (r.1 ++ noShift ++ ins :: rest.1), rest.2)
  else ([], a)
termination_by n - i

/-- Translation of `InsertionSort.generateSteps`.  The leading sorted mark at
index `0` is pushed unconditionally, even for an empty input. -/
def insertionGenerateSteps (a : List Int) : List Step × List Int :=
  let s0 := createStep StepType.sorted [0] a false
  let r := insOuter a 1 a.length
  (s0 :: (r.1 ++ sortedMarks r.2 0 a.length), r.2)

/-! ### Quick sort (`QuickSort.generateSteps`, Lomuto partition)

`low`/`high` stay `Int` because the recursion reaches `high = -1` on an
empty input and `high = p - 1 = low - 1` below a leftmost pivot, and the
source distinguishes `low > high` (no step) from `low = high` (a sorted
mark). -/

/-- Partition scan `for (j = low; j < high; j++)` of `QuickSort.partition`;
`i` is the boundary of smaller elements.  Returns steps, mutated array and
the final `i`. -/
def qsPartLoop (a : List Int) (high i j pivot : Int) :
    List Step × List Int × Int :=
  if _h : j < high then
    let cmp := createStep StepType.compare [j, high] a false
    if a.getD j.toNat 0 < pivot then
      if i + 1 ≠ j then
        let sw := createStep StepType.swap [i + 1, j] a true
        let a2 := swapJS a (i + 1).toNat j.toNat
        let r := qsPartLoop a2 high (i + 1) (j + 1) pivot
        (cmp :: sw :: r.1, r.2)
      else
        let sel := createStep StepType.select [i + 1] a false
        let r := qsPartLoop a high (i + 1) (j + 1) pivot
        (cmp :: sel :: r.1, r.2)
    else
      let r := qsPartLoop a high i (j + 1) pivot
      (cmp :: r.1, r.2)
  else ([], a, i)
termination_by (high - j).toNat
decreasing_by all_goals omega

/-- Translation of `QuickSort.partition`: pivot mark, scan, then the pivot
placement swap when `i + 1 ≠ high`.  Returns steps, mutated array and the
pivot's final position. -/
def qsPartition (a : List Int) (low high : Int) :
    List Step × List Int × Int :=
  let pivot := a.getD high.toNat 0
  let pv := createStep StepType.pivot [high] a false
  let r := qsPartLoop a high (low - 1) low pivot
  let p := r.2.2 + 1
  if p ≠ high then
    let sw := createStep StepType.swap [p, high] r.2.1 true
    let a2 := swapJS r.2.1 p.toNat high.toNat
    (pv :: (r.1 ++ [sw]), a2, p)
  else
    (pv :: r.1, r.2.1, p)

theorem qsPartLoop_i_ge (a : List Int) (high i j pivot : Int) :
    i ≤ (qsPartLoop a high i j pivot).2.2 := by
  unfold qsPartLoop
  split
  · split
    · split
      · have := qsPartLoop_i_ge (swapJS a (i + 1).toNat j.toNat) high (i + 1) (j + 1) pivot
        simpa using le_trans (by omega) this
      · have := qsPartLoop_i_ge a high (i + 1) (j + 1) pivot
        simpa using le_trans (by omega) this
    · have := qsPartLoop_i_ge a high i (j + 1) pivot
      simpa using this
  · simp
termination_by (high - j).toNat
decreasing_by all_goals omega

theorem qsPartLoop_i_lt (a : List Int) (high i j pivot : Int)
    (hij : i < j) (hjh : j ≤ high) :
    (qsPartLoop a high i j pivot).2.2 < high := by
  unfold qsPartLoop
  split
  · split
    · split
      · have := qsPartLoop_i_lt (swapJS a (i + 1).toNat j.toNat) high (i + 1) (j + 1) pivot (by omega) (by omega)
        simpa using this
      · have := qsPartLoop_i_lt a high (i + 1) (j + 1) pivot (by omega) (by omega)
        simpa using this
    · have := qsPartLoop_i_lt a high i (j + 1) pivot (by omega) (by omega)
      simpa using this
  · simp; omega
termination_by (high - j).toNat
decreasing_by all_goals omega

/-- Bounds for the pivot's final position, used for the recursion measure of
`quickSortRec`. -/
theorem qsPartition_pos_bound (a : List Int) (low high : Int) (h : low < high) :
    low ≤ (qsPartition a low high).2.2 ∧ (qsPartition a low high).2.2 ≤ high := by
  have h1 := qsPartLoop_i_ge a high (low - 1) low (a.getD high.toNat 0)
  have h2 := qsPartLoop_i_lt a high (low - 1) low (a.getD high.toNat 0) (by omega) (by omega)
  simp only [qsPartition]
  split <;> dsimp only <;> omega

/-- Translation of `QuickSort.quickSortRecursive`. -/
def quickSortRec (a : List Int) (low high : Int) : List Step × List Int :=
  if _hlh : low ≥ high then
    if low = high then ([createStep StepType.sorted [low] a false], a)
    else ([], a)
  else
    let d := createStep StepType.divide [low, high] a false
    let pr := qsPartition a low high
    let so := createStep StepType.sorted [pr.2.2] pr.2.1 false
    let lft := quickSortRec pr.2.1 low (pr.2.2 - 1)
    let rgt := quickSortRec lft.2 (pr.2.2 + 1) high
    (d :: (pr.1 ++ so :: (lft.1 ++ rgt.1)), rgt.2)
termination_by (high + 1 - low).toNat
decreasing_by
  · have := qsPartition_pos_bound a low high (by omega)
    omega
  · have := qsPartition_pos_bound a low high (by omega)
    omega

/-- Translation of `QuickSort.generateSteps`. -/
def quickGenerateSteps (a : List Int) : List Step × List Int :=
  let r := quickSortRec a 0 ((a.length : Int) - 1)
  (r.1 ++ sortedMarks r.2 0 a.length, r.2)

/-! ### Heap sort (`HeapSort.generateSteps`) -/

/-- The value of `largest` in `HeapSort.heapify` after the left-child
comparison. -/
def heapLg1 (a : List Int) (n i : Nat) : Nat :=
  if 2 * i + 1 < n ∧ a.getD (2 * i + 1) 0 > a.getD i 0 then 2 * i + 1 else i

/-- The value of `largest` in `HeapSort.heapify` after both child
comparisons. -/
def heapLargest (a : List Int) (n i : Nat) : Nat :=
  if 2 * i + 2 < n ∧ a.getD (2 * i + 2) 0 > a.getD (heapLg1 a n i) 0 then 2 * i + 2
  else heapLg1 a n i

theorem heapLargest_bound (a : List Int) (n i : Nat) :
    heapLargest a n i = i ∨ (i < heapLargest a n i ∧ heapLargest a n i < n) := by
  unfold heapLargest
  split
  · rename_i h
    exact Or.inr ⟨by omega, h.1⟩
  · unfold heapLg1
    split
    · rename_i h
      exact Or.inr ⟨by omega, h.1⟩
    · exact Or.inl rfl

/-- Translation of `HeapSort.heapify` (sift-down at root `i` of a heap of
size `n`), including the compare steps against the present children. -/
def heapify (a : List Int) (n i : Nat) : List Step × List Int :=
  let st1 : List Step :=
    if 2 * i + 1 < n then
      [createStep StepType.compare [(i : Int), ((2 * i + 1 : Nat) : Int)] a false]
    else []
  let st2 : List Step :=
    if 2 * i + 2 < n then
      [createStep StepType.compare [(heapLg1 a n i : Int), ((2 * i + 2 : Nat) : Int)] a false]
    else []
  if _h2 : heapLargest a n i ≠ i then
    let sw := createStep StepType.swap [(i : Int), (heapLargest a n i : Int)] a true
    let hr := heapify (swapJS a i (heapLargest a n i)) n (heapLargest a n i)
    (st1 ++ st2 ++ sw :: hr.1, hr.2)
  else (st1 ++ st2, a)
termination_by n - i
decreasing_by
  have := heapLargest_bound a n i
  omega

/-- Heap construction `for (i = n/2 - 1; i >= 0; i--) heapify(arr, n, i)`,
counted by `k = i + 1` so the first call is `heapify` at `k - 1 = n/2 - 1`. -/
def heapBuild (a : List Int) (k n : Nat) : List Step × List Int :=
  match k with
  | 0 => ([], a)
  | k + 1 =>
    let r := heapify a n k
    let rest := heapBuild r.2 k n
    (r.1 ++ rest.1, rest.2)

/-- Extraction loop `for (i = n - 1; i > 0; i--)` of heap sort. -/
def heapExtract (a : List Int) (i : Nat) : List Step × List Int :=
  if _h : 0 < i then
    let sw := createStep StepType.swap [0, (i : Int)] a true
    let a2 := swapJS a 0 i
    let so := createStep StepType.sorted [(i : Int)] a2 false
    let r := heapify a2 i 0
    let rest := heapExtract r.2 (i - 1)
    (sw :: so :: (r.1 ++ rest.1), rest.2)
  else ([], a)
termination_by i

/-- Translation of `HeapSort.generateSteps`: divide announcement, heap
construction, extraction, and the unconditional final mark at index `0`
(out of bounds on an empty input). -/
def heapGenerateSteps (a : List Int) : List Step × List Int :=
  let d := createStep StepType.divide [] a false
  let b := heapBuild a (a.length / 2) a.length
  let e := heapExtract b.2 (a.length - 1)
  (d :: (b.1 ++ e.1 ++ [createStep StepType.sorted [0] e.2 false]), e.2)

/-! ### Merge sort (`MergeSort.generateSteps`, sorting-visualizer variant) -/

/-- Main merging loop of `MergeSort.merge` while both temporary arrays are
non-empty; `left`/`mid` are needed for the compare step's indices, `k` is
the output cursor. -/
def mergeLoop (w L R : List Int) (left mid i j k : Nat) :
    List Step × List Int × Nat × Nat × Nat :=
  if _h : i < L.length ∧ j < R.length then
    let cmp := createStep StepType.compare
      [((left + i : Nat) : Int), ((mid + 1 + j : Nat) : Int)] w false
    if L.getD i 0 ≤ R.getD j 0 then
      let sel := createStep StepType.select [(k : Int)] w true
      let r := mergeLoop (w.set k (L.getD i 0)) L R left mid (i + 1) j (k + 1)
      (cmp :: sel :: r.1, r.2)
    else
      let sel := createStep StepType.select [(k : Int)] w true
      let r := mergeLoop (w.set k (R.getD j 0)) L R left mid i (j + 1) (k + 1)
      (cmp :: sel :: r.1, r.2)
  else ([], w, i, j, k)
termination_by (L.length - i) + (R.length - j)
decreasing_by all_goals omega

/-- Drain loop placing the remaining elements of one temporary array;
returns steps, the mutated array and the final output cursor `k`. -/
def mergeDrain (w T : List Int) (i k : Nat) : List Step × List Int × Nat :=
  if _h : i < T.length then
    let sel := createStep StepType.select [(k : Int)] w true
    let r := mergeDrain (w.set k (T.getD i 0)) T (i + 1) (k + 1)
    (sel :: r.1, r.2)
  else ([], w, k)
termination_by T.length - i

/-- Translation of `MergeSort.merge` (the copies `L[i] = w[left+i]`,
`R[j] = w[mid+1+j]` are expressed with `drop`/`take`). -/
def mergeJS (w : List Int) (left mid right : Nat) : List Step × List Int :=
  let L := (w.drop left).take (mid + 1 - left)
  let R := (w.drop (mid + 1)).take (right - mid)
  let ms := createStep StepType.merge [(left : Int), (right : Int)] w false
  let r1 := mergeLoop w L R left mid 0 0 left
  let r2 := mergeDrain r1.2.1 L r1.2.2.1 r1.2.2.2.2
  let r3 := mergeDrain r2.2.1 R r1.2.2.2.1 r2.2.2
  (ms :: (r1.1 ++ r2.1 ++ r3.1), r3.2.1)

/-- Translation of `MergeSort.mergeSortRecursive`. -/
def mergeSortRec (w : List Int) (left right : Int) : List Step × List Int :=
  if _h : left ≥ right then ([], w)
  else
    let mid := left + (((right - left).toNat / 2 : Nat) : Int)
    let d := createStep StepType.divide [left, right] w false
    let r1 := mergeSortRec w left mid
    let r2 := mergeSortRec r1.2 (mid + 1) right
    let r3 := mergeJS r2.2 left.toNat mid.toNat right.toNat
    (d :: (r1.1 ++ r2.1 ++ r3.1), r3.2)
termination_by (right - left).toNat
decreasing_by all_goals omega

/-- Translation of `MergeSort.generateSteps`. -/
def mergeGenerateSteps (a : List Int) : List Step × List Int :=
  let r := mergeSortRec a 0 ((a.length : Int) - 1)
  (r.1 ++ sortedMarks r.2 0 a.length, r.2)

/-! ### Move validation

The five swap-based engines implement `validateMove` with literally the same
logic and differ only in the human-readable failure messages, which are not
modelled; `swapEngineValidateMove` is that shared logic.  Returned is only
the `valid` flag of the result object. -/

/-- A user action `{type, indices, value}`; `value` is optional because only
merge-sort actions carry it. -/
structure UserAction where
  type : StepType
  indices : List Int
  value : Option Int
deriving DecidableEq, Repr

/-- The in-place ascending sort `indices.sort((a, b) => a - b)`; by
`swapStep_indices_sorted`-style facts below it never changes a stored
step's indices. -/
def jsSortAsc (l : List Int) : List Int :=
  List.insertionSort (· ≤ ·) l

/-- Translation of `validateMove` of bubble, selection, insertion, quick and
heap sort: the comparison `expected[0] === user[0] && expected[1] === user[1]`
on the ascending-sorted index lists, where reading past the end of a JS
array gives `undefined` (`none`). -/
def swapEngineValidateMove (steps : List Step) (stepIndex : Nat)
    (ua : UserAction) : Bool :=
  match steps.get? stepIndex with
  | none => false
  | some step =>
    if !step.isUserAction then false
    else if ua.type ≠ StepType.swap then false
    else
      let e := jsSortAsc step.indices
      let u := jsSortAsc ua.indices
      decide (e.get? 0 = u.get? 0 ∧ e.get? 1 = u.get? 1)

/-- Translation of `MergeSort.validateMove`: the submitted value is compared
with `step.values[0]`. -/
def mergeValidateMove (steps : List Step) (stepIndex : Nat)
    (ua : UserAction) : Bool :=
  match steps.get? stepIndex with
  | none => false
  | some step =>
    if !step.isUserAction then false
    else if ua.type ≠ StepType.select then false
    else decide (ua.value = step.values.getD 0 none)

/-! ### Game manager (`gameManager.js`)

`Date.now()` is modelled by an `elapsed` argument (seconds already elapsed)
supplied where the source reads the clock; array generation uses
`Math.random`, so `startGameWith` takes the generated array as an
argument instead. -/

inductive AlgKey where
  | bubble
  | selection
  | insertion
  | merge
  | quick
  | heap
deriving DecidableEq, Repr

inductive Difficulty where
  | easy
  | medium
  | hard
  | expert
deriving DecidableEq, Repr

/-- The `size` field of `this.difficulties`. -/
def diffSize : Difficulty → Nat
  | Difficulty.easy => 5
  | Difficulty.medium => 8
  | Difficulty.hard => 12
  | Difficulty.expert => 16

/-- The `bonus` (difficulty multiplier) field of `this.difficulties`. -/
def diffBonus : Difficulty → ℚ
  | Difficulty.easy => 1
  | Difficulty.medium => 3 / 2
  | Difficulty.hard => 2
  | Difficulty.expert => 3

/-- Dispatch of `this.algorithms[key].generateSteps`. -/
def engineGenerate : AlgKey → List Int → List Step × List Int
  | AlgKey.bubble => bubbleGenerateSteps
  | AlgKey.selection => selectionGenerateSteps
  | AlgKey.insertion => insertionGenerateSteps
  | AlgKey.merge => mergeGenerateSteps
  | AlgKey.quick => quickGenerateSteps
  | AlgKey.heap => heapGenerateSteps

/-- Dispatch of `this.currentAlgorithm.validateMove`. -/
def engineValidate (k : AlgKey) (steps : List Step) (stepIndex : Nat)
    (ua : UserAction) : Bool :=
  match k with
  | AlgKey.merge => mergeValidateMove steps stepIndex ua
  | _ => swapEngineValidateMove steps stepIndex ua

/-- The game-session state of `GameManager` (times are kept as elapsed
seconds at the moment they were frozen). -/
structure GameState where
  alg : AlgKey
  steps : List Step
  currentStepIndex : Nat
  currentArray : List Int
  originalArray : List Int
  score : Int
  correctMoves : Nat
  incorrectMoves : Nat
  streak : Nat
  maxStreak : Nat
  difficulty : Difficulty
  isGameActive : Bool
  isGameComplete : Bool
deriving Repr

/-- Translation of `advanceToNextUserAction`: walk forward over non-action
steps, copying each passed step's snapshot into `currentArray`. -/
def advanceLoop (steps : List Step) (idx : Nat) (arr : List Int) :
    Nat × List Int :=
  if h : idx < steps.length then
    let step := steps.get ⟨idx, h⟩
    if step.isUserAction then (idx, arr)
    else advanceLoop steps (idx + 1) step.arrayState
  else (idx, arr)
termination_by steps.length - idx

/-- Translation of `startGame`, with the randomly generated input array
passed in as `arr`. -/
def startGameWith (alg : AlgKey) (d : Difficulty) (arr : List Int) :
    GameState :=
  let steps := (engineGenerate alg arr).1
  let adv := advanceLoop steps 0 arr
  { alg := alg
    steps := steps
    currentStepIndex := adv.1
    currentArray := adv.2
    originalArray := arr
    score := 0
    correctMoves := 0
    incorrectMoves := 0
    streak := 0
    maxStreak := 0
    difficulty := d
    isGameActive := true
    isGameComplete := false }

/-- The swap `const [i, j] = userAction.indices; [arr[i], arr[j]] = ...`
performed by `processMove`/`skipStep`; only reached with two valid indices. -/
def applySwapAction (arr : List Int) (indices : List Int) : List Int :=
  match indices with
  | i :: j :: _ => if 0 ≤ i ∧ 0 ≤ j then swapJS arr i.toNat j.toNat else arr
  | _ => arr

/-- Translation of `completeGame`; `elapsed` is `(Date.now() - startTime)/1000`.
On a game with no moves the JS accuracy is `0/0 = NaN`, which fails both
bonus comparisons; the rational `0 / 0 = 0` yields the same outcome. -/
def completeGame (g : GameState) (elapsed : ℚ) : GameState :=
  let g1 := { g with isGameActive := false, isGameComplete := true }
  let optimalTime : ℚ := (g.steps.length : ℚ) * 2
  let g2 :=
    if elapsed < optimalTime then
      { g1 with score := g1.score + round (200 * (1 - elapsed / optimalTime)) }
    else g1
  let accuracy : ℚ :=
    (g.correctMoves : ℚ) / ((g.correctMoves : ℚ) + (g.incorrectMoves : ℚ))
  if accuracy = 1 then { g2 with score := g2.score + 150 }
  else if accuracy ≥ 9 / 10 then { g2 with score := g2.score + 100 }
  else g2

/-- Translation of `processMove`. -/
def processMove (g : GameState) (ua : UserAction) (elapsed : ℚ) : GameState :=
  if ¬g.isGameActive ∨ g.isGameComplete then g
  else
    match g.steps.get? g.currentStepIndex with
    | none => g
    | some step =>
      if ¬step.isUserAction then g
      else if engineValidate g.alg g.steps g.currentStepIndex ua then
        let streak2 := g.streak + 1
        let streakBonus : ℚ := if streak2 ≥ 5 then 50 else 0
        let points := round ((100 + streakBonus) * diffBonus g.difficulty)
        let arr2 :=
          if ua.type = StepType.swap then applySwapAction g.currentArray ua.indices
          else g.currentArray
        let adv := advanceLoop g.steps (g.currentStepIndex + 1) arr2
        let g2 :=
          { g with
            correctMoves := g.correctMoves + 1
            streak := streak2
            maxStreak := max g.maxStreak streak2
            score := g.score + points
            currentStepIndex := adv.1
            currentArray := adv.2 }
        if adv.1 ≥ g.steps.length then completeGame g2 elapsed else g2
      else
        { g with
          incorrectMoves := g.incorrectMoves + 1
          streak := 0
          score := max 0 (g.score - 50) }

/-- Translation of `skipStep`.  Note that after applying a swap step's
exchange the source immediately overwrites `currentArray` with the step's
own snapshot (`this.currentArray = [...currentStep.arrayState]`). -/
def skipStep (g : GameState) (elapsed : ℚ) : GameState :=
  if ¬g.isGameActive ∨ g.isGameComplete then g
  else
    let arr1 :=
      match g.steps.get? g.currentStepIndex with
      | some step =>
        if step.isUserAction then
          let _swapped :=
            if step.type = StepType.swap then
              applySwapAction g.currentArray step.indices
            else g.currentArray
          step.arrayState
        else g.currentArray
      | none => g.currentArray
    let adv := advanceLoop g.steps (g.currentStepIndex + 1) arr1
    let g2 :=
      { g with currentStepIndex := adv.1, currentArray := adv.2 }
    if adv.1 ≥ g.steps.length then completeGame g2 elapsed else g2

/-! ### Basic list toolkit -/

theorem length_swapJS (a : List Int) (i j : Nat) :
    (swapJS a i j).length = a.length := by
  simp [swapJS]

theorem getD_set_self (l : List Int) (k : Nat) (x : Int) (h : k < l.length) :
    (l.set k x).getD k 0 = x := by
  simp [List.getD, List.getElem?_set_self', List.getElem?_eq_getElem h]

theorem getD_set_ne (l : List Int) (k m : Nat) (x : Int) (h : k ≠ m) :
    (l.set k x).getD m 0 = l.getD m 0 := by
  simp [List.getD, List.getElem?_set_ne h]

theorem getD_swapJS_left (a : List Int) (i j : Nat) (hij : i ≠ j)
    (hi : i < a.length) :
    (swapJS a i j).getD i 0 = a.getD j 0 := by
  unfold swapJS
  rw [getD_set_ne _ _ _ _ (Ne.symm hij), getD_set_self _ _ _ hi]

theorem getD_swapJS_right (a : List Int) (i j : Nat) (hj : j < a.length) :
    (swapJS a i j).getD j 0 = a.getD i 0 := by
  unfold swapJS
  rw [getD_set_self]
  simpa using hj

theorem getD_swapJS_other (a : List Int) (i j k : Nat) (hik : k ≠ i)
    (hjk : k ≠ j) : (swapJS a i j).getD k 0 = a.getD k 0 := by
  unfold swapJS
  rw [getD_set_ne _ _ _ _ (Ne.symm hjk), getD_set_ne _ _ _ _ (Ne.symm hik)]

theorem swapJS_cons (x : Int) (t : List Int) (i j : Nat) :
    swapJS (x :: t) (i + 1) (j + 1) = x :: swapJS t i j := by
  simp [swapJS, List.getD]

theorem cons_set_perm (t : List Int) (k : Nat) (x : Int) (h : k < t.length) :
    List.Perm (t.getD k 0 :: t.set k x) (x :: t) := by
  induction t generalizing k with
  | nil => simp at h
  | cons y t2 ih =>
    cases k with
    | zero =>
      simp [List.getD]
      exact List.Perm.swap x y t2
    | succ k =>
      have hk : k < t2.length := by simpa using h
      have step1 : List.Perm (t2.getD k 0 :: y :: t2.set k x)
          (y :: t2.getD k 0 :: t2.set k x) :=
        List.Perm.swap y (t2.getD k 0) (t2.set k x)
      have step2 : List.Perm (y :: t2.getD k 0 :: t2.set k x) (y :: x :: t2) :=
        List.Perm.cons y (ih k hk)
      have step3 : List.Perm (y :: x :: t2) (x :: y :: t2) := List.Perm.swap x y t2
      simpa [List.getD] using ((step1.trans step2).trans step3)

theorem swapJS_perm (a : List Int) (i j : Nat) (hij : i < j)
    (hj : j < a.length) : List.Perm (swapJS a i j) a := by
  induction a generalizing i j with
  | nil => simp at hj
  | cons x t ih =>
    cases i with
    | zero =>
      cases j with
      | zero => omega
      | succ j =>
        have hjt : j < t.length := by simpa using hj
        have : swapJS (x :: t) 0 (j + 1) = t.getD j 0 :: t.set j x := by
          simp [swapJS, List.getD]
        rw [this]
        exact cons_set_perm t j x hjt
    | succ i =>
      cases j with
      | zero => omega
      | succ j =>
        rw [swapJS_cons]
        exact List.Perm.cons x (ih i j (by omega) (by simpa using hj))

/-- Sortedness of a list phrased through default-valued reads. -/
theorem sorted_iff_getD (l : List Int) :
    l.Sorted (· ≤ ·) ↔
      ∀ i j : Nat, i < j → j < l.length → l.getD i 0 ≤ l.getD j 0 := by
  rw [List.Sorted, List.pairwise_iff_get]
  constructor
  · intro h i j hij hj
    have hi : i < l.length := lt_trans hij hj
    have := h ⟨i, hi⟩ ⟨j, hj⟩ hij
    simpa [List.getD, List.getElem?_eq_getElem, hi, hj] using this
  · intro h i j hij
    have := h i.1 j.1 hij j.2
    simpa [List.getD, List.getElem?_eq_getElem, i.2, j.2] using this

/-- The canonical ascending sort used as the specification of sorting. -/
def sortA (a : List Int) : List Int := List.insertionSort (· ≤ ·) a

theorem eq_sortA_of_perm_of_sorted (a l : List Int) (hp : List.Perm l a)
    (hs : l.Sorted (· ≤ ·)) : l = sortA a := by
  refine List.eq_of_perm_of_sorted (hp.trans (List.perm_insertionSort (· ≤ ·) a).symm) hs ?_
  exact List.sorted_insertionSort (· ≤ ·) a

/-! ### Trace-evolution relations

`Emits a s b` says: starting from working array `a`, the engine pushed the
steps `s` in order, every step snapshotting the working array as it stood at
push time, and only swap steps (always pushed just *before* their exchange)
mutating the array, ending in `b`.  This is the shape of the five swap-based
engines.  `EmitsM` is the merge-sort variant, whose only mutations are the
placements `workingArray[k] = v` of its user-action select steps (again
pushed just before the write). -/

inductive Emits : List Int → List Step → List Int → Prop where
  | nil (a : List Int) : Emits a [] a
  | passive (a : List Int) (st : Step) {s : List Step} {b : List Int}
      (hsnap : st.arrayState = a)
      (hwf : st.values = st.indices.map (jsGet a))
      (hact : st.isUserAction = false)
      (hnswap : st.type ≠ StepType.swap)
      (h : Emits a s b) : Emits a (st :: s) b
  | swapStep (a : List Int) (st : Step) (i j : Nat) {s : List Step} {b : List Int}
      (hsnap : st.arrayState = a)
      (hwf : st.values = st.indices.map (jsGet a))
      (hact : st.isUserAction = true)
      (htype : st.type = StepType.swap)
      (hidx : st.indices = [(i : Int), (j : Int)])
      (hij : i < j) (hjn : j < a.length)
      (h : Emits (swapJS a i j) s b) : Emits a (st :: s) b

inductive EmitsM : List Int → List Step → List Int → Prop where
  | nil (a : List Int) : EmitsM a [] a
  | passive (a : List Int) (st : Step) {s : List Step} {b : List Int}
      (hsnap : st.arrayState = a)
      (hwf : st.values = st.indices.map (jsGet a))
      (hact : st.isUserAction = false)
      (hnswap : st.type ≠ StepType.swap)
      (h : EmitsM a s b) : EmitsM a (st :: s) b
  | place (a : List Int) (st : Step) (k : Nat) (v : Int) {s : List Step} {b : List Int}
      (hsnap : st.arrayState = a)
      (hwf : st.values = st.indices.map (jsGet a))
      (hact : st.isUserAction = true)
      (htype : st.type = StepType.select)
      (hidx : st.indices = [(k : Int)])
      (hk : k < a.length)
      (h : EmitsM (a.set k v) s b) : EmitsM a (st :: s) b

theorem Emits.append_tr {a b c : List Int} {s t : List Step}
    (h1 : Emits a s b) (h2 : Emits b t c) : Emits a (s ++ t) c := by
  induction h1 with
  | nil => simpa using h2
  | passive a st hsnap hwf hact hnswap h ih =>
    exact Emits.passive a st hsnap hwf hact hnswap (ih h2)
  | swapStep a st i j hsnap hwf hact htype hidx hij hjn h ih =>
    exact Emits.swapStep a st i j hsnap hwf hact htype hidx hij hjn (ih h2)

theorem EmitsM.appendM_tr {a b c : List Int} {s t : List Step}
    (h1 : EmitsM a s b) (h2 : EmitsM b t c) : EmitsM a (s ++ t) c := by
  induction h1 with
  | nil => simpa using h2
  | passive a st hsnap hwf hact hnswap h ih =>
    exact EmitsM.passive a st hsnap hwf hact hnswap (ih h2)
  | place a st k v hsnap hwf hact htype hidx hk h ih =>
    exact EmitsM.place a st k v hsnap hwf hact htype hidx hk (ih h2)

theorem Emits.out_len {a b : List Int} {s : List Step} (h : Emits a s b) :
    b.length = a.length := by
  induction h with
  | nil => rfl
  | passive a st hsnap hwf hact hnswap h ih => exact ih
  | swapStep a st i j hsnap hwf hact htype hidx hij hjn h ih =>
    rw [ih, length_swapJS]

theorem EmitsM.outM_len {a b : List Int} {s : List Step} (h : EmitsM a s b) :
    b.length = a.length := by
  induction h with
  | nil => rfl
  | passive a st hsnap hwf hact hnswap h ih => exact ih
  | place a st k v hsnap hwf hact htype hidx hk h ih =>
    rw [ih, List.length_set]

theorem Emits.perm {a b : List Int} {s : List Step} (h : Emits a s b) :
    List.Perm b a := by
  induction h with
  | nil => exact List.Perm.refl _
  | passive a st hsnap hwf hact hnswap h ih => exact ih
  | swapStep a st i j hsnap hwf hact htype hidx hij hjn h ih =>
    exact ih.trans (swapJS_perm a i j hij hjn)

theorem Emits.snap_len {a b : List Int} {s : List Step}
    (h : Emits a s b) : ∀ st ∈ s, st.arrayState.length = a.length := by
  induction h with
  | nil => intro st hst; simp at hst
  | passive a st hsnap hwf hact hnswap h ih =>
    intro u hu
    rcases List.mem_cons.mp hu with h1 | h2
    · rw [h1, hsnap]
    · exact ih u h2
  | swapStep a st i j hsnap hwf hact htype hidx hij hjn h ih =>
    intro u hu
    rcases List.mem_cons.mp hu with h1 | h2
    · rw [h1, hsnap]
    · rw [ih u h2, length_swapJS]

theorem EmitsM.snapM_len {a b : List Int} {s : List Step}
    (h : EmitsM a s b) : ∀ st ∈ s, st.arrayState.length = a.length := by
  induction h with
  | nil => intro st hst; simp at hst
  | passive a st hsnap hwf hact hnswap h ih =>
    intro u hu
    rcases List.mem_cons.mp hu with h1 | h2
    · rw [h1, hsnap]
    · exact ih u h2
  | place a st k v hsnap hwf hact htype hidx hk h ih =>
    intro u hu
    rcases List.mem_cons.mp hu with h1 | h2
    · rw [h1, hsnap]
    · rw [ih u h2, List.length_set]

theorem Emits.vals_read {a b : List Int} {s : List Step} (h : Emits a s b) :
    ∀ st ∈ s, st.values = st.indices.map (jsGet st.arrayState) := by
  induction h with
  | nil => intro st hst; simp at hst
  | passive a st hsnap hwf hact hnswap h ih =>
    intro u hu
    rcases List.mem_cons.mp hu with h1 | h2
    · rw [h1, hsnap]; exact hwf
    · exact ih u h2
  | swapStep a st i j hsnap hwf hact htype hidx hij hjn h ih =>
    intro u hu
    rcases List.mem_cons.mp hu with h1 | h2
    · rw [h1, hsnap]; exact hwf
    · exact ih u h2

theorem EmitsM.valsM_read {a b : List Int} {s : List Step} (h : EmitsM a s b) :
    ∀ st ∈ s, st.values = st.indices.map (jsGet st.arrayState) := by
  induction h with
  | nil => intro st hst; simp at hst
  | passive a st hsnap hwf hact hnswap h ih =>
    intro u hu
    rcases List.mem_cons.mp hu with h1 | h2
    · rw [h1, hsnap]; exact hwf
    · exact ih u h2
  | place a st k v hsnap hwf hact htype hidx hk h ih =>
    intro u hu
    rcases List.mem_cons.mp hu with h1 | h2
    · rw [h1, hsnap]; exact hwf
    · exact ih u h2

/-- In a swap-engine trace every user-action step is a swap step whose
indices are an in-bounds strictly increasing pair. -/
theorem Emits.user_pair {a b : List Int} {s : List Step} (h : Emits a s b) :
    ∀ st ∈ s, st.isUserAction = true →
      st.type = StepType.swap ∧
        ∃ i j : Nat, st.indices = [(i : Int), (j : Int)] ∧ i < j ∧
          j < st.arrayState.length := by
  induction h with
  | nil => intro st hst; simp at hst
  | passive a st hsnap hwf hact hnswap h ih =>
    intro u hu hua
    rcases List.mem_cons.mp hu with h1 | h2
    · rw [h1] at hua; rw [hua] at hact; cases hact
    · exact ih u h2 hua
  | swapStep a st i j hsnap hwf hact htype hidx hij hjn h ih =>
    intro u hu hua
    rcases List.mem_cons.mp hu with h1 | h2
    · subst h1
      exact ⟨htype, i, j, hidx, hij, by rw [hsnap]; exact hjn⟩
    · exact ih u h2 hua

/-- In a swap-engine trace every swap-kind step is a user action with an
in-bounds strictly increasing index pair. -/
theorem Emits.swap_shape {a b : List Int} {s : List Step} (h : Emits a s b) :
    ∀ st ∈ s, st.type = StepType.swap →
      st.isUserAction = true ∧
        ∃ i j : Nat, st.indices = [(i : Int), (j : Int)] ∧ i < j ∧
          j < st.arrayState.length := by
  induction h with
  | nil => intro st hst; simp at hst
  | passive a st hsnap hwf hact hnswap h ih =>
    intro u hu hut
    rcases List.mem_cons.mp hu with h1 | h2
    · subst h1; exact absurd hut hnswap
    · exact ih u h2 hut
  | swapStep a st i j hsnap hwf hact htype hidx hij hjn h ih =>
    intro u hu hut
    rcases List.mem_cons.mp hu with h1 | h2
    · subst h1
      exact ⟨hact, i, j, hidx, hij, by rw [hsnap]; exact hjn⟩
    · exact ih u h2 hut

/-- A merge-sort trace has no swap-kind steps, and every user-action step is
a select step with a single in-bounds index. -/
theorem EmitsM.userM_shape {a b : List Int} {s : List Step} (h : EmitsM a s b) :
    ∀ st ∈ s, st.isUserAction = true →
      st.type = StepType.select ∧
        ∃ k : Nat, st.indices = [(k : Int)] ∧ k < st.arrayState.length := by
  induction h with
  | nil => intro st hst; simp at hst
  | passive a st hsnap hwf hact hnswap h ih =>
    intro u hu hua
    rcases List.mem_cons.mp hu with h1 | h2
    · rw [h1] at hua; rw [hua] at hact; cases hact
    · exact ih u h2 hua
  | place a st k v hsnap hwf hact htype hidx hk h ih =>
    intro u hu hua
    rcases List.mem_cons.mp hu with h1 | h2
    · subst h1
      exact ⟨htype, k, hidx, by rw [hsnap]; exact hk⟩
    · exact ih u h2 hua

theorem EmitsM.no_swap {a b : List Int} {s : List Step} (h : EmitsM a s b) :
    ∀ st ∈ s, st.type ≠ StepType.swap := by
  induction h with
  | nil => intro st hst; simp at hst
  | passive a st hsnap hwf hact hnswap h ih =>
    intro u hu
    rcases List.mem_cons.mp hu with h1 | h2
    · rw [h1]; exact hnswap
    · exact ih u h2
  | place a st k v hsnap hwf hact htype hidx hk h ih =>
    intro u hu
    rcases List.mem_cons.mp hu with h1 | h2
    · rw [h1, htype]; intro hc; cases hc
    · exact ih u h2

/-- Every step of a merge trace snapshots the state reached by the steps
strictly before it, and a user-action select step's own placement happens
only *after* its snapshot: the trace prefix that includes the step drives
the input to `st.arrayState.set p v` for the placed value `v` — so the
snapshot does not yet show the placed value whenever the write changes the
array. -/
theorem EmitsM.snapM_take {a b : List Int} {s : List Step}
    (h : EmitsM a s b) :
    ∀ n st, s.get? n = some st →
      EmitsM a (s.take n) st.arrayState ∧
      (st.isUserAction = true → ∃ p : Nat, ∃ v : Int,
        st.indices = [(p : Int)] ∧ p < st.arrayState.length ∧
        EmitsM a (s.take (n + 1)) (st.arrayState.set p v)) := by
  induction h with
  | nil => intro n st hst; simp at hst
  | passive a st hsnap hwf hact hnswap h ih =>
    intro n u hu
    cases n with
    | zero =>
      simp at hu
      refine ⟨?_, ?_⟩
      · rw [← hu, hsnap]
        exact EmitsM.nil a
      · intro hua
        rw [← hu] at hua
        rw [hua] at hact
        cases hact
    | succ n =>
      simp only [List.get?_cons_succ] at hu
      obtain ⟨ih1, ih2⟩ := ih n u hu
      refine ⟨?_, ?_⟩
      · rw [List.take_succ_cons]
        exact EmitsM.passive a st hsnap hwf hact hnswap ih1
      · intro hua
        obtain ⟨p, v, hidx, hplen, hpre⟩ := ih2 hua
        refine ⟨p, v, hidx, hplen, ?_⟩
        rw [List.take_succ_cons]
        exact EmitsM.passive a st hsnap hwf hact hnswap hpre
  | place a st k v hsnap hwf hact htype hidx hk h ih =>
    intro n u hu
    cases n with
    | zero =>
      simp at hu
      refine ⟨?_, ?_⟩
      · rw [← hu, hsnap]
        exact EmitsM.nil a
      · intro _
        refine ⟨k, v, ?_, ?_, ?_⟩
        · rw [← hu]
          exact hidx
        · rw [← hu, hsnap]
          exact hk
        · rw [← hu, hsnap]
          exact EmitsM.place a st k v hsnap hwf hact htype hidx hk
            (EmitsM.nil _)
    | succ n =>
      simp only [List.get?_cons_succ] at hu
      obtain ⟨ih1, ih2⟩ := ih n u hu
      refine ⟨?_, ?_⟩
      · rw [List.take_succ_cons]
        exact EmitsM.place a st k v hsnap hwf hact htype hidx hk ih1
      · intro hua
        obtain ⟨p, w, hidx2, hplen, hpre⟩ := ih2 hua
        refine ⟨p, w, hidx2, hplen, ?_⟩
        rw [List.take_succ_cons]
        exact EmitsM.place a st k v hsnap hwf hact htype hidx hk hpre

/-- Replaying the swap steps of a trace: exchange the two recorded indices
of every swap-kind step, in order. -/
def replaySwaps (s : List Step) (x : List Int) : List Int :=
  s.foldl
    (fun arr st =>
      if st.type = StepType.swap then
        match st.indices with
        | i :: j :: _ => swapJS arr i.toNat j.toNat
        | _ => arr
      else arr) x

theorem replaySwaps_nil (x : List Int) : replaySwaps [] x = x := rfl

theorem replaySwaps_cons (st : Step) (s : List Step) (x : List Int) :
    replaySwaps (st :: s) x =
      replaySwaps s
        (if st.type = StepType.swap then
          match st.indices with
          | i :: j :: _ => swapJS x i.toNat j.toNat
          | _ => x
        else x) := rfl

/-- Replaying the swap steps of a swap-engine trace against the initial
array reproduces the engine's final array. -/
theorem Emits.replay {a b : List Int} {s : List Step} (h : Emits a s b) :
    replaySwaps s a = b := by
  induction h with
  | nil => rfl
  | passive a st hsnap hwf hact hnswap h ih =>
    rw [replaySwaps_cons, if_neg hnswap]
    exact ih
  | swapStep a st i j hsnap hwf hact htype hidx hij hjn h ih =>
    rw [replaySwaps_cons, if_pos htype, hidx]
    simpa using ih

/-- Every step of a swap-engine trace snapshots the state reached by
replaying the swap steps strictly before it: in particular a swap step's
snapshot shows the array *before* its own exchange. -/
theorem Emits.snapshot_replay {a b : List Int} {s : List Step}
    (h : Emits a s b) :
    ∀ n st, s.get? n = some st → st.arrayState = replaySwaps (s.take n) a := by
  induction h with
  | nil => intro n st hst; simp at hst
  | passive a st hsnap hwf hact hnswap h ih =>
    intro n u hu
    cases n with
    | zero =>
      simp at hu
      rw [← hu, hsnap]
      rfl
    | succ n =>
      simp only [List.get?_cons_succ] at hu
      rw [List.take_succ_cons, replaySwaps_cons, if_neg hnswap]
      exact ih n u hu
  | swapStep a st i j hsnap hwf hact htype hidx hij hjn h ih =>
    intro n u hu
    cases n with
    | zero =>
      simp at hu
      rw [← hu, hsnap]
      rfl
    | succ n =>
      simp only [List.get?_cons_succ] at hu
      rw [List.take_succ_cons, replaySwaps_cons, if_pos htype, hidx]
      simpa using ih n u hu

/-! ### Per-engine trace-evolution proofs -/

theorem emits_passive_create (t : StepType) (idx : List Int) (a : List Int)
    (ht : t ≠ StepType.swap) {s : List Step} {b : List Int}
    (h : Emits a s b) : Emits a (createStep t idx a false :: s) b :=
  Emits.passive a _ rfl rfl rfl ht h

theorem emits_swap_create (a : List Int) (i j : Nat) (hij : i < j)
    (hjn : j < a.length) {s : List Step} {b : List Int}
    (h : Emits (swapJS a i j) s b) :
    Emits a (createStep StepType.swap [(i : Int), (j : Int)] a true :: s) b :=
  Emits.swapStep a _ i j rfl rfl rfl rfl rfl hij hjn h

theorem emitsM_passive_create (t : StepType) (idx : List Int) (a : List Int)
    (ht : t ≠ StepType.swap) {s : List Step} {b : List Int}
    (h : EmitsM a s b) : EmitsM a (createStep t idx a false :: s) b :=
  EmitsM.passive a _ rfl rfl rfl ht h

theorem emitsM_place_create (a : List Int) (k : Nat) (v : Int)
    (hk : k < a.length) {s : List Step} {b : List Int}
    (h : EmitsM (a.set k v) s b) :
    EmitsM a (createStep StepType.select [(k : Int)] a true :: s) b :=
  EmitsM.place a _ k v rfl rfl rfl rfl rfl hk h

theorem sortedMarks_emits (a : List Int) (i m : Nat) :
    Emits a (sortedMarks a i m) a := by
  rw [sortedMarks]
  split
  · exact emits_passive_create _ _ _ (by intro hc; cases hc)
      (sortedMarks_emits a (i + 1) m)
  · exact Emits.nil a
termination_by m - i

theorem sortedMarks_emitsM (a : List Int) (i m : Nat) :
    EmitsM a (sortedMarks a i m) a := by
  rw [sortedMarks]
  split
  · exact emitsM_passive_create _ _ _ (by intro hc; cases hc)
      (sortedMarks_emitsM a (i + 1) m)
  · exact EmitsM.nil a
termination_by m - i

theorem bubbleScan_emits (a : List Int) (j m : Nat) (sw : Bool)
    (hm : m < a.length) :
    Emits a (bubbleScan a j m sw).1 (bubbleScan a j m sw).2.1 := by
  rw [bubbleScan]
  split
  · rename_i h
    split
    · dsimp only
      refine emits_passive_create _ _ _ (by intro hc; cases hc) ?_
      refine emits_swap_create a j (j + 1) (by omega) (by omega) ?_
      exact bubbleScan_emits (swapJS a j (j + 1)) (j + 1) m true
        (by rw [length_swapJS]; exact hm)
    · dsimp only
      exact emits_passive_create _ _ _ (by intro hc; cases hc)
        (bubbleScan_emits a (j + 1) m sw hm)
  · exact Emits.nil a
termination_by m - j

theorem bubbleScan_length (a : List Int) (j m : Nat) (sw : Bool) :
    (bubbleScan a j m sw).2.1.length = a.length := by
  rw [bubbleScan]
  split
  · split
    · dsimp only
      rw [bubbleScan_length, length_swapJS]
    · dsimp only
      rw [bubbleScan_length]
  · rfl
termination_by m - j

theorem bubbleOuter_emits (a : List Int) (i n : Nat) (hn : n ≤ a.length) :
    Emits a (bubbleOuter a i n).1 (bubbleOuter a i n).2 := by
  rw [bubbleOuter]
  split
  · rename_i h
    dsimp only
    have hm : n - 1 - i < a.length := by omega
    have hscan := bubbleScan_emits a 0 (n - 1 - i) false hm
    have hlen := bubbleScan_length a 0 (n - 1 - i) false
    split
    · dsimp only
      refine Emits.append_tr hscan ?_
      refine emits_passive_create _ _ _ (by intro hc; cases hc) ?_
      exact bubbleOuter_emits (bubbleScan a 0 (n - 1 - i) false).2.1 (i + 1) n
        (by rw [hlen]; exact hn)
    · dsimp only
      refine Emits.append_tr hscan ?_
      refine emits_passive_create _ _ _ (by intro hc; cases hc) ?_
      exact sortedMarks_emits _ 0 (n - 1 - i)
  · exact Emits.nil a
termination_by n - 1 - i

theorem bubbleGenerateSteps_emits (a : List Int) :
    Emits a (bubbleGenerateSteps a).1 (bubbleGenerateSteps a).2 := by
  have h := bubbleOuter_emits a 0 a.length (le_refl _)
  unfold bubbleGenerateSteps
  dsimp only
  split
  · exact h
  · split
    · dsimp only
      refine Emits.append_tr h ?_
      exact emits_passive_create _ _ _ (by intro hc; cases hc) (Emits.nil _)
    · exact h

theorem selFind_emits (a : List Int) (minIdx j n : Nat) :
    Emits a (selFind a minIdx j n).1 a := by
  rw [selFind]
  split
  · split
    · dsimp only
      refine emits_passive_create _ _ _ (by intro hc; cases hc) ?_
      exact emits_passive_create _ _ _ (by intro hc; cases hc)
        (selFind_emits a j (j + 1) n)
    · dsimp only
      exact emits_passive_create _ _ _ (by intro hc; cases hc)
        (selFind_emits a minIdx (j + 1) n)
  · exact Emits.nil a
termination_by n - j

theorem selFind_bound (a : List Int) (minIdx j n : Nat) :
    (selFind a minIdx j n).2 = minIdx ∨
      (j ≤ (selFind a minIdx j n).2 ∧ (selFind a minIdx j n).2 < n) := by
  rw [selFind]
  split
  · rename_i h
    split
    · dsimp only
      rcases selFind_bound a j (j + 1) n with h1 | h1
      · right; omega
      · right; omega
    · dsimp only
      rcases selFind_bound a minIdx (j + 1) n with h1 | h1
      · left; exact h1
      · right; omega
  · left; rfl
termination_by n - j

theorem selOuter_emits (a : List Int) (i n : Nat) (hn : n ≤ a.length) :
    Emits a (selOuter a i n).1 (selOuter a i n).2 := by
  rw [selOuter]
  split
  · rename_i h
    dsimp only
    have hb := selFind_bound a i (i + 1) n
    split
    · rename_i hne
      dsimp only
      have hlt : i < (selFind a i (i + 1) n).2 := by omega
      have hn2 : (selFind a i (i + 1) n).2 < a.length := by omega
      refine emits_passive_create _ _ _ (by intro hc; cases hc) ?_
      refine Emits.append_tr (selFind_emits a i (i + 1) n) ?_
      refine emits_swap_create a i _ hlt hn2 ?_
      refine emits_passive_create _ _ _ (by intro hc; cases hc) ?_
      exact selOuter_emits (swapJS a i (selFind a i (i + 1) n).2) (i + 1) n
        (by rw [length_swapJS]; exact hn)
    · dsimp only
      refine emits_passive_create _ _ _ (by intro hc; cases hc) ?_
      refine Emits.append_tr (selFind_emits a i (i + 1) n) ?_
      refine emits_passive_create _ _ _ (by intro hc; cases hc) ?_
      exact selOuter_emits a (i + 1) n hn
  · exact Emits.nil a
termination_by n - 1 - i

theorem selectionGenerateSteps_emits (a : List Int) :
    Emits a (selectionGenerateSteps a).1 (selectionGenerateSteps a).2 := by
  unfold selectionGenerateSteps
  dsimp only
  refine Emits.append_tr (selOuter_emits a 0 a.length (le_refl _)) ?_
  exact emits_passive_create _ _ _ (by intro hc; cases hc) (Emits.nil _)

theorem insShift_eq_swap (a : List Int) (k : Nat) (key : Int) (h1 : 1 ≤ k)
    (hk : k < a.length) (hkey : a.getD k 0 = key) :
    (a.set k (a.getD (k - 1) 0)).set (k - 1) key = swapJS a (k - 1) k := by
  unfold swapJS
  rw [← hkey]
  have hne : k ≠ k - 1 := by omega
  rw [List.set_comm _ _ _ hne]

theorem insLoop_emits (a : List Int) (k : Nat) (key : Int)
    (hk : k < a.length) (hkey : a.getD k 0 = key) :
    Emits a (insLoop a k key).1 (insLoop a k key).2.1 := by
  rw [insLoop]
  split
  · rename_i h
    dsimp only
    have hset : ((a.set k (a.getD (k - 1) 0)).set (k - 1) key) =
        swapJS a (k - 1) k := insShift_eq_swap a k key h.1 hk hkey
    refine emits_passive_create _ _ _ (by intro hc; cases hc) ?_
    have hidx : ([(k : Int) - 1, (k : Int)] : List Int) =
        [(((k - 1 : Nat)) : Int), ((k : Nat) : Int)] := by
      have : (((k - 1 : Nat)) : Int) = (k : Int) - 1 := by omega
      rw [this]
    rw [show (createStep StepType.swap [(k : Int) - 1, (k : Int)] a true) =
        (createStep StepType.swap [(((k - 1 : Nat)) : Int), ((k : Nat) : Int)] a true) by
      rw [hidx]]
    refine emits_swap_create a (k - 1) k (by omega) hk ?_
    rw [← hset]
    refine insLoop_emits _ (k - 1) key ?_ ?_
    · simp
      omega
    · rw [getD_set_self]
      simp
      omega
  · exact Emits.nil a
termination_by k

theorem insLoop_length (a : List Int) (k : Nat) (key : Int) :
    (insLoop a k key).2.1.length = a.length := by
  rw [insLoop]
  split
  · dsimp only
    rw [insLoop_length]
    simp
  · rfl
termination_by k

theorem insOuter_emits (a : List Int) (i n : Nat) (hn : n ≤ a.length) :
    Emits a (insOuter a i n).1 (insOuter a i n).2 := by
  rw [insOuter]
  split
  · rename_i h
    dsimp only
    refine emits_passive_create _ _ _ (by intro hc; cases hc) ?_
    have hlen := insLoop_length a i (a.getD i 0)
    have h1 := insLoop_emits a i (a.getD i 0) (by omega) rfl
    have h3 : Emits (insLoop a i (a.getD i 0)).2.1
        (createStep StepType.insert [((insLoop a i (a.getD i 0)).2.2 : Int)]
            (insLoop a i (a.getD i 0)).2.1 false :: (insOuter (insLoop a i (a.getD i 0)).2.1 (i + 1) n).1)
        (insOuter (insLoop a i (a.getD i 0)).2.1 (i + 1) n).2 := by
      refine emits_passive_create _ _ _ (by intro hc; cases hc) ?_
      exact insOuter_emits _ (i + 1) n (by rw [hlen]; exact hn)
    by_cases hki : (insLoop a i (a.getD i 0)).2.2 = i
    · rw [if_pos hki]
      refine Emits.append_tr (Emits.append_tr h1 ?_) h3
      exact emits_passive_create _ _ _ (by intro hc; cases hc) (Emits.nil _)
    · rw [if_neg hki]
      refine Emits.append_tr (Emits.append_tr h1 (Emits.nil _)) h3
  · exact Emits.nil a
termination_by n - i

theorem insOuter_length (a : List Int) (i n : Nat) :
    (insOuter a i n).2.length = a.length := by
  rw [insOuter]
  split
  · dsimp only
    rw [insOuter_length, insLoop_length]
  · rfl
termination_by n - i

theorem insertionGenerateSteps_emits (a : List Int) :
    Emits a (insertionGenerateSteps a).1 (insertionGenerateSteps a).2 := by
  unfold insertionGenerateSteps
  dsimp only
  refine emits_passive_create _ _ _ (by intro hc; cases hc) ?_
  refine Emits.append_tr (insOuter_emits a 1 a.length (le_refl _)) ?_
  exact sortedMarks_emits _ 0 a.length

theorem qsPartLoop_length (a : List Int) (high i j pivot : Int) :
    (qsPartLoop a high i j pivot).2.1.length = a.length := by
  rw [qsPartLoop]
  split
  · split
    · split
      · dsimp only
        rw [qsPartLoop_length, length_swapJS]
      · dsimp only
        rw [qsPartLoop_length]
    · dsimp only
      rw [qsPartLoop_length]
  · rfl
termination_by (high - j).toNat
decreasing_by all_goals omega

theorem qsPartLoop_emits (a : List Int) (high i j pivot : Int)
    (hi : -1 ≤ i) (hij : i < j) (hh : high < (a.length : Int)) :
    Emits a (qsPartLoop a high i j pivot).1 (qsPartLoop a high i j pivot).2.1 := by
  rw [qsPartLoop]
  split
  · rename_i h
    split
    · split
      · rename_i hlt hne
        dsimp only
        refine emits_passive_create _ _ _ (by intro hc; cases hc) ?_
        have hi1 : ((i + 1).toNat : Int) = i + 1 := by omega
        have hjn : (j.toNat : Int) = j := by omega
        have hcast : ([(i + 1 : Int), j] : List Int) =
            [(((i + 1).toNat : Nat) : Int), ((j.toNat : Nat) : Int)] := by
          rw [hi1, hjn]
        rw [show (createStep StepType.swap [i + 1, j] a true) =
            (createStep StepType.swap
              [(((i + 1).toNat : Nat) : Int), ((j.toNat : Nat) : Int)] a true) by
          rw [hcast]]
        refine emits_swap_create a (i + 1).toNat j.toNat (by omega) (by omega) ?_
        exact qsPartLoop_emits _ high (i + 1) (j + 1) pivot (by omega) (by omega)
          (by rw [length_swapJS]; exact hh)
      · dsimp only
        refine emits_passive_create _ _ _ (by intro hc; cases hc) ?_
        refine emits_passive_create _ _ _ (by intro hc; cases hc) ?_
        exact qsPartLoop_emits a high (i + 1) (j + 1) pivot (by omega) (by omega) hh
    · dsimp only
      refine emits_passive_create _ _ _ (by intro hc; cases hc) ?_
      exact qsPartLoop_emits a high i (j + 1) pivot hi (by omega) hh
  · exact Emits.nil a
termination_by (high - j).toNat
decreasing_by all_goals omega

theorem qsPartition_length (a : List Int) (low high : Int) :
    (qsPartition a low high).2.1.length = a.length := by
  simp only [qsPartition]
  split
  · dsimp only
    rw [length_swapJS, qsPartLoop_length]
  · dsimp only
    rw [qsPartLoop_length]

theorem qsPartition_emits (a : List Int) (low high : Int)
    (hl : 0 ≤ low) (hlh : low < high) (hh : high < (a.length : Int)) :
    Emits a (qsPartition a low high).1 (qsPartition a low high).2.1 := by
  have hge := qsPartLoop_i_ge a high (low - 1) low (a.getD high.toNat 0)
  have hlt := qsPartLoop_i_lt a high (low - 1) low (a.getD high.toNat 0)
    (by omega) (by omega)
  have hlen := qsPartLoop_length a high (low - 1) low (a.getD high.toNat 0)
  have hloop := qsPartLoop_emits a high (low - 1) low (a.getD high.toNat 0)
    (by omega) (by omega) hh
  simp only [qsPartition]
  split
  · rename_i hne
    dsimp only
    refine emits_passive_create _ _ _ (by intro hc; cases hc) ?_
    refine Emits.append_tr hloop ?_
    set r := qsPartLoop a high (low - 1) low (a.getD high.toNat 0) with hr
    have hp1 : ((r.2.2 + 1).toNat : Int) = r.2.2 + 1 := by omega
    have hhn : (high.toNat : Int) = high := by omega
    have hcast : ([(r.2.2 + 1 : Int), high] : List Int) =
        [(((r.2.2 + 1).toNat : Nat) : Int), ((high.toNat : Nat) : Int)] := by
      rw [hp1, hhn]
    rw [show (createStep StepType.swap [r.2.2 + 1, high] r.2.1 true) =
        (createStep StepType.swap
          [(((r.2.2 + 1).toNat : Nat) : Int), ((high.toNat : Nat) : Int)] r.2.1 true) by
      rw [hcast]]
    refine emits_swap_create r.2.1 (r.2.2 + 1).toNat high.toNat (by omega)
      (by rw [hlen]; omega) (by simpa using Emits.nil _)
  · dsimp only
    refine emits_passive_create _ _ _ (by intro hc; cases hc) hloop

theorem quickSortRec_length (a : List Int) (low high : Int) :
    (quickSortRec a low high).2.length = a.length := by
  rw [quickSortRec]
  split
  · split <;> rfl
  · dsimp only
    rw [quickSortRec_length, quickSortRec_length, qsPartition_length]
termination_by (high + 1 - low).toNat
decreasing_by
  · have := qsPartition_pos_bound a low high (by omega)
    omega
  · have := qsPartition_pos_bound a low high (by omega)
    omega

theorem quickSortRec_emits (a : List Int) (low high : Int)
    (hl : 0 ≤ low) (hh : high < (a.length : Int)) :
    Emits a (quickSortRec a low high).1 (quickSortRec a low high).2 := by
  rw [quickSortRec]
  split
  · split
    · exact emits_passive_create _ _ _ (by intro hc; cases hc) (Emits.nil a)
    · exact Emits.nil a
  · rename_i hlh
    dsimp only
    have hb := qsPartition_pos_bound a low high (by omega)
    have hplen := qsPartition_length a low high
    have hllen := quickSortRec_length (qsPartition a low high).2.1 low
      ((qsPartition a low high).2.2 - 1)
    refine emits_passive_create _ _ _ (by intro hc; cases hc) ?_
    refine Emits.append_tr (qsPartition_emits a low high hl (by omega) hh) ?_
    refine emits_passive_create _ _ _ (by intro hc; cases hc) ?_
    have hL := quickSortRec_emits (qsPartition a low high).2.1 low
      ((qsPartition a low high).2.2 - 1) hl (by rw [hplen]; omega)
    have hR := quickSortRec_emits (quickSortRec (qsPartition a low high).2.1 low
        ((qsPartition a low high).2.2 - 1)).2 ((qsPartition a low high).2.2 + 1) high
      (by omega) (by rw [hllen, hplen]; omega)
    exact Emits.append_tr hL hR
termination_by (high + 1 - low).toNat
decreasing_by
  · have := qsPartition_pos_bound a low high (by omega)
    omega
  · have := qsPartition_pos_bound a low high (by omega)
    omega

theorem quickGenerateSteps_emits (a : List Int) :
    Emits a (quickGenerateSteps a).1 (quickGenerateSteps a).2 := by
  unfold quickGenerateSteps
  dsimp only
  refine Emits.append_tr ?_ (sortedMarks_emits _ 0 a.length)
  exact quickSortRec_emits a 0 ((a.length : Int) - 1) (by omega) (by omega)

theorem heapify_length (a : List Int) (n i : Nat) :
    (heapify a n i).2.length = a.length := by
  rw [heapify]
  split
  · dsimp only
    rw [heapify_length, length_swapJS]
  · rfl
termination_by n - i
decreasing_by
  have := heapLargest_bound a n i
  omega

theorem heapify_emits (a : List Int) (n i : Nat) (hn : n ≤ a.length) :
    Emits a (heapify a n i).1 (heapify a n i).2 := by
  rw [heapify]
  have hc1 : Emits a
      (if 2 * i + 1 < n then
        [createStep StepType.compare [(i : Int), ((2 * i + 1 : Nat) : Int)] a false]
      else []) a := by
    split
    · exact emits_passive_create _ _ _ (by intro hc; cases hc) (Emits.nil _)
    · exact Emits.nil _
  have hc2 : Emits a
      (if 2 * i + 2 < n then
        [createStep StepType.compare [(heapLg1 a n i : Int), ((2 * i + 2 : Nat) : Int)] a false]
      else []) a := by
    split
    · exact emits_passive_create _ _ _ (by intro hc; cases hc) (Emits.nil _)
    · exact Emits.nil _
  have hcmp := Emits.append_tr hc1 hc2
  split
  · rename_i hne
    dsimp only
    have hb := heapLargest_bound a n i
    refine Emits.append_tr hcmp ?_
    refine emits_swap_create a i (heapLargest a n i) (by omega) (by omega) ?_
    exact heapify_emits _ n _ (by rw [length_swapJS]; exact hn)
  · exact hcmp
termination_by n - i
decreasing_by
  have := heapLargest_bound a n i
  omega

theorem heapBuild_length (a : List Int) (k n : Nat) :
    (heapBuild a k n).2.length = a.length := by
  induction k generalizing a with
  | zero => rfl
  | succ k ih =>
    simp only [heapBuild]
    rw [ih, heapify_length]

theorem heapBuild_emits (a : List Int) (k n : Nat) (hn : n ≤ a.length) :
    Emits a (heapBuild a k n).1 (heapBuild a k n).2 := by
  induction k generalizing a with
  | zero => exact Emits.nil a
  | succ k ih =>
    simp only [heapBuild]
    refine Emits.append_tr (heapify_emits a n k hn) ?_
    exact ih _ (by rw [heapify_length]; exact hn)

theorem heapExtract_length (a : List Int) (i : Nat) :
    (heapExtract a i).2.length = a.length := by
  rw [heapExtract]
  split
  · dsimp only
    rw [heapExtract_length, heapify_length, length_swapJS]
  · rfl
termination_by i

theorem heapExtract_emits (a : List Int) (i : Nat) (hi : i < a.length ∨ i = 0) :
    Emits a (heapExtract a i).1 (heapExtract a i).2 := by
  rw [heapExtract]
  split
  · rename_i h0
    dsimp only
    have hia : i < a.length := by omega
    rw [show ((0 : Int) :: [(i : Int)] : List Int) = [((0 : Nat) : Int), (i : Nat)] by simp] at *
    refine emits_swap_create a 0 i h0 hia ?_
    refine emits_passive_create _ _ _ (by intro hc; cases hc) ?_
    have h1 := heapify_emits (swapJS a 0 i) i 0 (by rw [length_swapJS]; omega)
    refine Emits.append_tr h1 ?_
    refine heapExtract_emits _ (i - 1) ?_
    rw [heapify_length, length_swapJS]
    omega
  · exact Emits.nil a
termination_by i

theorem heapGenerateSteps_emits (a : List Int) :
    Emits a (heapGenerateSteps a).1 (heapGenerateSteps a).2 := by
  unfold heapGenerateSteps
  dsimp only
  refine emits_passive_create _ _ _ (by intro hc; cases hc) ?_
  have hb := heapBuild_emits a (a.length / 2) a.length (le_refl _)
  have hblen := heapBuild_length a (a.length / 2) a.length
  have he := heapExtract_emits (heapBuild a (a.length / 2) a.length).2 (a.length - 1)
    (by rw [hblen]; omega)
  refine Emits.append_tr (Emits.append_tr hb he) ?_
  exact emits_passive_create _ _ _ (by intro hc; cases hc) (Emits.nil _)

theorem mergeLoop_inv (w L R : List Int) (left mid i j k : Nat)
    (hi : i ≤ L.length) (hj : j ≤ R.length) :
    (mergeLoop w L R left mid i j k).2.2.1 ≤ L.length ∧
      (mergeLoop w L R left mid i j k).2.2.2.1 ≤ R.length ∧
      (mergeLoop w L R left mid i j k).2.2.2.2 +
          (L.length - (mergeLoop w L R left mid i j k).2.2.1) +
          (R.length - (mergeLoop w L R left mid i j k).2.2.2.1) =
        k + (L.length - i) + (R.length - j) ∧
      (mergeLoop w L R left mid i j k).2.1.length = w.length := by
  rw [mergeLoop]
  split
  · rename_i h
    split
    · dsimp only
      have := mergeLoop_inv (w.set k (L.getD i 0)) L R left mid (i + 1) j (k + 1)
        (by omega) hj
      simp only [List.length_set] at this
      exact ⟨this.1, this.2.1, by omega, this.2.2.2⟩
    · dsimp only
      have := mergeLoop_inv (w.set k (R.getD j 0)) L R left mid i (j + 1) (k + 1)
        hi (by omega)
      simp only [List.length_set] at this
      exact ⟨this.1, this.2.1, by omega, this.2.2.2⟩
  · dsimp only
    exact ⟨hi, hj, by omega, rfl⟩
termination_by (L.length - i) + (R.length - j)
decreasing_by all_goals omega

theorem mergeLoop_emitsM (w L R : List Int) (left mid i j k : Nat)
    (hk : k + (L.length - i) + (R.length - j) ≤ w.length) :
    EmitsM w (mergeLoop w L R left mid i j k).1 (mergeLoop w L R left mid i j k).2.1 := by
  rw [mergeLoop]
  split
  · rename_i h
    split
    · dsimp only
      refine emitsM_passive_create _ _ _ (by intro hc; cases hc) ?_
      refine emitsM_place_create w k (L.getD i 0) (by omega) ?_
      refine mergeLoop_emitsM _ L R left mid (i + 1) j (k + 1) ?_
      simp only [List.length_set]
      omega
    · dsimp only
      refine emitsM_passive_create _ _ _ (by intro hc; cases hc) ?_
      refine emitsM_place_create w k (R.getD j 0) (by omega) ?_
      refine mergeLoop_emitsM _ L R left mid i (j + 1) (k + 1) ?_
      simp only [List.length_set]
      omega
  · exact EmitsM.nil w
termination_by (L.length - i) + (R.length - j)
decreasing_by all_goals omega

theorem mergeDrain_inv (w T : List Int) (i k : Nat) (hi : i ≤ T.length) :
    (mergeDrain w T i k).2.2 = k + (T.length - i) ∧
      (mergeDrain w T i k).2.1.length = w.length := by
  rw [mergeDrain]
  split
  · rename_i h
    dsimp only
    have := mergeDrain_inv (w.set k (T.getD i 0)) T (i + 1) (k + 1) (by omega)
    simp only [List.length_set] at this
    exact ⟨by omega, this.2⟩
  · dsimp only
    exact ⟨by omega, rfl⟩
termination_by T.length - i

theorem mergeDrain_emitsM (w T : List Int) (i k : Nat)
    (hk : k + (T.length - i) ≤ w.length) :
    EmitsM w (mergeDrain w T i k).1 (mergeDrain w T i k).2.1 := by
  rw [mergeDrain]
  split
  · rename_i h
    dsimp only
    refine emitsM_place_create w k (T.getD i 0) (by omega) ?_
    refine mergeDrain_emitsM _ T (i + 1) (k + 1) ?_
    simp only [List.length_set]
    omega
  · exact EmitsM.nil w
termination_by T.length - i

theorem mergeJS_length (w : List Int) (left mid right : Nat)
    (hlm : left ≤ mid) (hmr : mid < right) (hr : right < w.length) :
    (mergeJS w left mid right).2.length = w.length := by
  unfold mergeJS
  dsimp only
  set L := (w.drop left).take (mid + 1 - left) with hLdef
  set R := (w.drop (mid + 1)).take (right - mid) with hRdef
  have hL : L.length = mid + 1 - left := by
    rw [hLdef]
    simp
    omega
  have hR : R.length = right - mid := by
    rw [hRdef]
    simp
    omega
  set r1 := mergeLoop w L R left mid 0 0 left with hr1
  have h1 := mergeLoop_inv w L R left mid 0 0 left (Nat.zero_le _) (Nat.zero_le _)
  rw [← hr1] at h1
  set r2 := mergeDrain r1.2.1 L r1.2.2.1 r1.2.2.2.2 with hr2
  have h2 := mergeDrain_inv r1.2.1 L r1.2.2.1 r1.2.2.2.2 h1.1
  rw [← hr2] at h2
  have h3 := mergeDrain_inv r2.2.1 R r1.2.2.2.1 r2.2.2 h1.2.1
  rw [h3.2, h2.2, h1.2.2.2]

theorem mergeJS_emitsM (w : List Int) (left mid right : Nat)
    (hlm : left ≤ mid) (hmr : mid < right) (hr : right < w.length) :
    EmitsM w (mergeJS w left mid right).1 (mergeJS w left mid right).2 := by
  unfold mergeJS
  dsimp only
  set L := (w.drop left).take (mid + 1 - left) with hLdef
  set R := (w.drop (mid + 1)).take (right - mid) with hRdef
  have hL : L.length = mid + 1 - left := by
    rw [hLdef]
    simp
    omega
  have hR : R.length = right - mid := by
    rw [hRdef]
    simp
    omega
  refine emitsM_passive_create _ _ _ (by intro hc; cases hc) ?_
  set r1 := mergeLoop w L R left mid 0 0 left with hr1
  have h1 := mergeLoop_inv w L R left mid 0 0 left (Nat.zero_le _) (Nat.zero_le _)
  rw [← hr1] at h1
  have e1 := mergeLoop_emitsM w L R left mid 0 0 left (by omega)
  rw [← hr1] at e1
  set r2 := mergeDrain r1.2.1 L r1.2.2.1 r1.2.2.2.2 with hr2
  have h2 := mergeDrain_inv r1.2.1 L r1.2.2.1 r1.2.2.2.2 h1.1
  rw [← hr2] at h2
  have e2 := mergeDrain_emitsM r1.2.1 L r1.2.2.1 r1.2.2.2.2 (by omega)
  rw [← hr2] at e2
  have e3 := mergeDrain_emitsM r2.2.1 R r1.2.2.2.1 r2.2.2 (by omega)
  exact EmitsM.appendM_tr (EmitsM.appendM_tr e1 e2) e3

theorem mergeLoop_length (w L R : List Int) (left mid i j k : Nat) :
    (mergeLoop w L R left mid i j k).2.1.length = w.length := by
  rw [mergeLoop]
  split
  · split
    · dsimp only
      rw [mergeLoop_length]
      simp
    · dsimp only
      rw [mergeLoop_length]
      simp
  · rfl
termination_by (L.length - i) + (R.length - j)
decreasing_by all_goals omega

theorem mergeDrain_length (w T : List Int) (i k : Nat) :
    (mergeDrain w T i k).2.1.length = w.length := by
  rw [mergeDrain]
  split
  · dsimp only
    rw [mergeDrain_length]
    simp
  · rfl
termination_by T.length - i

theorem mergeJS_length_all (w : List Int) (left mid right : Nat) :
    (mergeJS w left mid right).2.length = w.length := by
  unfold mergeJS
  dsimp only
  rw [mergeDrain_length, mergeDrain_length, mergeLoop_length]

theorem mergeSortRec_length (w : List Int) (left right : Int) :
    (mergeSortRec w left right).2.length = w.length := by
  rw [mergeSortRec]
  split
  · rfl
  · dsimp only
    rw [mergeJS_length_all, mergeSortRec_length, mergeSortRec_length]
termination_by (right - left).toNat
decreasing_by all_goals omega

theorem mergeSortRec_emitsM (w : List Int) (left right : Int)
    (hl : 0 ≤ left) (hr : right < (w.length : Int)) :
    EmitsM w (mergeSortRec w left right).1 (mergeSortRec w left right).2 := by
  rw [mergeSortRec]
  split
  · exact EmitsM.nil w
  · rename_i h
    dsimp only
    set mid := left + (((right - left).toNat / 2 : Nat) : Int) with hmid
    have hmb : left ≤ mid ∧ mid < right := by
      rw [hmid]
      omega
    refine emitsM_passive_create _ _ _ (by intro hc; cases hc) ?_
    have len1 := mergeSortRec_length w left mid
    have len2 := mergeSortRec_length (mergeSortRec w left mid).2 (mid + 1) right
    have e1 := mergeSortRec_emitsM w left mid hl (by omega)
    have e2 := mergeSortRec_emitsM (mergeSortRec w left mid).2 (mid + 1) right
      (by omega) (by rw [len1]; omega)
    have e3 := mergeJS_emitsM (mergeSortRec (mergeSortRec w left mid).2 (mid + 1) right).2
      left.toNat mid.toNat right.toNat (by omega) (by omega)
      (by rw [len2, len1]; omega)
    exact EmitsM.appendM_tr (EmitsM.appendM_tr e1 e2) e3
termination_by (right - left).toNat
decreasing_by all_goals omega

theorem mergeGenerateSteps_emitsM (a : List Int) :
    EmitsM a (mergeGenerateSteps a).1 (mergeGenerateSteps a).2 := by
  unfold mergeGenerateSteps
  dsimp only
  refine EmitsM.appendM_tr ?_ (sortedMarks_emitsM _ 0 a.length)
  exact mergeSortRec_emitsM a 0 ((a.length : Int) - 1) (by omega) (by omega)

/-! ### Sortedness of the final arrays

Each engine's final working array is proved to be a sorted permutation of
its input, hence equal to `sortA` of the input. -/

theorem insLoop_spec (a : List Int) (k : Nat) (key : Int)
    (hk : k < a.length) (hkey : a.getD k 0 = key)
    (hs : ∀ p q : Nat, p < q → q < k → a.getD p 0 ≤ a.getD q 0) :
    List.Perm (insLoop a k key).2.1 a ∧
      (∀ m : Nat, k < m → (insLoop a k key).2.1.getD m 0 = a.getD m 0) ∧
      (∀ p q : Nat, p < q → q ≤ k →
        (insLoop a k key).2.1.getD p 0 ≤ (insLoop a k key).2.1.getD q 0) ∧
      (∀ b : Int, (∀ p : Nat, p ≤ k → a.getD p 0 ≤ b) →
        ∀ p : Nat, p ≤ k → (insLoop a k key).2.1.getD p 0 ≤ b) := by
  rw [insLoop]
  split
  · rename_i h
    dsimp only
    rw [insShift_eq_swap a k key h.1 hk hkey]
    set a2 := swapJS a (k - 1) k with ha2
    have hlen2 : a2.length = a.length := length_swapJS a (k - 1) k
    have hk2 : k - 1 < a2.length := by omega
    have hkm : a2.getD (k - 1) 0 = key := by
      rw [ha2, getD_swapJS_left a (k - 1) k (by omega) (by omega), hkey]
    have hktop : a2.getD k 0 = a.getD (k - 1) 0 := by
      rw [ha2, getD_swapJS_right a (k - 1) k hk]
    have hother : ∀ m : Nat, m ≠ k - 1 → m ≠ k → a2.getD m 0 = a.getD m 0 := by
      intro m h1 h2
      rw [ha2, getD_swapJS_other a (k - 1) k m h1 h2]
    have hs2 : ∀ p q : Nat, p < q → q < k - 1 → a2.getD p 0 ≤ a2.getD q 0 := by
      intro p q hpq hq
      rw [hother p (by omega) (by omega), hother q (by omega) (by omega)]
      exact hs p q hpq (by omega)
    have ih := insLoop_spec a2 (k - 1) key hk2 hkm hs2
    refine ⟨?_, ?_, ?_, ?_⟩
    · exact ih.1.trans (swapJS_perm a (k - 1) k (by omega) hk)
    · intro m hm
      rw [ih.2.1 m (by omega), hother m (by omega) (by omega)]
    · intro p q hpq hq
      by_cases hqk : q ≤ k - 1
      · exact ih.2.2.1 p q hpq hqk
      · have hqek : q = k := by omega
        have htop : (insLoop a2 (k - 1) key).2.1.getD q 0 = a.getD (k - 1) 0 := by
          rw [hqek, ih.2.1 k (by omega), hktop]
        rw [htop]
        refine ih.2.2.2 (a.getD (k - 1) 0) ?_ p (by omega)
        intro p2 hp2
        by_cases hp2e : p2 = k - 1
        · rw [hp2e, hkm, ← hkey]
          omega
        · rw [hother p2 hp2e (by omega)]
          by_cases hp2e2 : p2 = k - 1 - 1
          · by_cases h1 : k - 1 = 0
            · omega
            · rw [hp2e2]
              exact hs (k - 1 - 1) (k - 1) (by omega) (by omega)
          · exact le_trans (hs p2 (k - 1) (by omega) (by omega)) (le_refl _)
    · intro b hb p hp
      by_cases hpk : p ≤ k - 1
      · refine ih.2.2.2 b ?_ p hpk
        intro p2 hp2
        by_cases hp2e : p2 = k - 1
        · rw [hp2e, hkm, ← hkey]
          exact hb k (le_refl _)
        · rw [hother p2 hp2e (by omega)]
          exact hb p2 (by omega)
      · have hpe : p = k := by omega
        rw [hpe, ih.2.1 k (by omega), hktop]
        exact hb (k - 1) (by omega)
  · refine ⟨List.Perm.refl a, fun m _ => rfl, ?_, fun b hb p hp => hb p hp⟩
    rename_i h
    intro p q hpq hq
    by_cases hqk : q < k
    · exact hs p q hpq hqk
    · have hqe : q = k := by omega
      rw [hqe]
      by_cases hk0 : k = 0
      · omega
      · have hle : a.getD (k - 1) 0 ≤ a.getD k 0 := by
          rw [hkey]
          push_neg at h
          exact h (by omega)
        by_cases hpe : p = k - 1
        · rw [hpe]
          exact hle
        · exact le_trans (hs p (k - 1) (by omega) (by omega)) hle
termination_by k
decreasing_by all_goals omega

theorem insOuter_spec (a : List Int) (i n : Nat) (hn : n = a.length)
    (hi : 1 ≤ i)
    (hs : ∀ p q : Nat, p < q → q < i → a.getD p 0 ≤ a.getD q 0) :
    List.Perm (insOuter a i n).2 a ∧
      (∀ p q : Nat, p < q → q < n →
        (insOuter a i n).2.getD p 0 ≤ (insOuter a i n).2.getD q 0) := by
  rw [insOuter]
  split
  · rename_i h
    dsimp only
    have hloop := insLoop_spec a i (a.getD i 0) (by omega) rfl hs
    set a2 := (insLoop a i (a.getD i 0)).2.1 with ha2
    have hlen2 : a2.length = a.length := hloop.1.length_eq
    have hs2 : ∀ p q : Nat, p < q → q < i + 1 → a2.getD p 0 ≤ a2.getD q 0 := by
      intro p q hpq hq
      exact hloop.2.2.1 p q hpq (by omega)
    have ih := insOuter_spec a2 (i + 1) n (by omega) (by omega) hs2
    exact ⟨ih.1.trans hloop.1, ih.2⟩
  · rename_i h
    refine ⟨List.Perm.refl a, ?_⟩
    intro p q hpq hq
    exact hs p q hpq (by omega)
termination_by n - i

theorem insertionGenerateSteps_final (a : List Int) :
    (insertionGenerateSteps a).2 = sortA a := by
  unfold insertionGenerateSteps
  dsimp only
  have h := insOuter_spec a 1 a.length rfl (le_refl 1)
    (by intro p q hpq hq; omega)
  refine eq_sortA_of_perm_of_sorted a _ h.1 ?_
  rw [sorted_iff_getD]
  intro p q hpq hq
  refine h.2 p q hpq ?_
  rw [insOuter_length a 1 a.length] at hq
  exact hq

theorem selFind_min (a : List Int) (minIdx j n : Nat) :
    a.getD (selFind a minIdx j n).2 0 ≤ a.getD minIdx 0 ∧
      ∀ t : Nat, j ≤ t → t < n →
        a.getD (selFind a minIdx j n).2 0 ≤ a.getD t 0 := by
  rw [selFind]
  split
  · rename_i h
    split
    · rename_i hlt
      dsimp only
      have ih := selFind_min a j (j + 1) n
      refine ⟨le_trans ih.1 (le_of_lt hlt), ?_⟩
      intro t ht htn
      by_cases hte : t = j
      · rw [hte]
        exact ih.1
      · exact ih.2 t (by omega) htn
    · rename_i hge
      dsimp only
      have ih := selFind_min a minIdx (j + 1) n
      refine ⟨ih.1, ?_⟩
      intro t ht htn
      by_cases hte : t = j
      · rw [hte]
        exact le_trans ih.1 (by omega)
      · exact ih.2 t (by omega) htn
  · exact ⟨le_refl _, fun t ht htn => by omega⟩
termination_by n - j

theorem selOuter_spec (a : List Int) (i n : Nat) (hn : n = a.length)
    (hs : ∀ p q : Nat, p < q → q < n → p < i → a.getD p 0 ≤ a.getD q 0) :
    List.Perm (selOuter a i n).2 a ∧
      (∀ p q : Nat, p < q → q < n →
        (selOuter a i n).2.getD p 0 ≤ (selOuter a i n).2.getD q 0) := by
  rw [selOuter]
  split
  · rename_i h
    dsimp only
    have hb := selFind_bound a i (i + 1) n
    have hmin := selFind_min a i (i + 1) n
    set m := (selFind a i (i + 1) n).2 with hm
    have hmlow : a.getD m 0 ≤ a.getD i 0 := hmin.1
    have hmall : ∀ t : Nat, i ≤ t → t < n → a.getD m 0 ≤ a.getD t 0 := by
      intro t ht htn
      by_cases hte : t = i
      · rw [hte]; exact hmin.1
      · exact hmin.2 t (by omega) htn
    split
    · rename_i hne
      dsimp only
      have hmr : i < m ∧ m < n := by omega
      set a2 := swapJS a i m with ha2
      have hlen2 : a2.length = a.length := length_swapJS a i m
      have hai : a2.getD i 0 = a.getD m 0 :=
        getD_swapJS_left a i m (by omega) (by omega)
      have ham : a2.getD m 0 = a.getD i 0 :=
        getD_swapJS_right a i m (by omega)
      have hother : ∀ t : Nat, t ≠ i → t ≠ m → a2.getD t 0 = a.getD t 0 :=
        fun t h1 h2 => getD_swapJS_other a i m t h1 h2
      have hs2 : ∀ p q : Nat, p < q → q < n → p < i + 1 →
          a2.getD p 0 ≤ a2.getD q 0 := by
        intro p q hpq hq hp
        by_cases hpe : p = i
        · rw [hpe, hai]
          by_cases hqe : q = m
          · rw [hqe, ham]
            exact hmlow
          · rw [hother q (by omega) hqe]
            exact hmall q (by omega) hq
        · have hpi : p < i := by omega
          rw [hother p (by omega) (by omega)]
          by_cases hqe : q = i
          · rw [hqe, hai]
            exact hs p m (by omega) (by omega) hpi
          · by_cases hqm : q = m
            · rw [hqm, ham]
              exact hs p i (by omega) (by omega) hpi
            · rw [hother q hqe hqm]
              exact hs p q hpq hq hpi
      have ih := selOuter_spec a2 (i + 1) n (by omega) hs2
      exact ⟨ih.1.trans (swapJS_perm a i m (by omega) (by omega)), ih.2⟩
    · rename_i heq
      dsimp only
      have hme : m = i := by omega
      have hs2 : ∀ p q : Nat, p < q → q < n → p < i + 1 →
          a.getD p 0 ≤ a.getD q 0 := by
        intro p q hpq hq hp
        by_cases hpe : p = i
        · rw [hpe]
          rw [hme] at hmall
          exact hmall q (by omega) hq
        · exact hs p q hpq hq (by omega)
      exact selOuter_spec a (i + 1) n hn hs2
  · rename_i h
    refine ⟨List.Perm.refl a, ?_⟩
    intro p q hpq hq
    exact hs p q hpq hq (by omega)
termination_by n - 1 - i

theorem selOuter_length (a : List Int) (i n : Nat) :
    (selOuter a i n).2.length = a.length := by
  rw [selOuter]
  split
  · dsimp only
    split
    · dsimp only
      rw [selOuter_length, length_swapJS]
    · dsimp only
      rw [selOuter_length]
  · rfl
termination_by n - 1 - i

theorem selectionGenerateSteps_final (a : List Int) :
    (selectionGenerateSteps a).2 = sortA a := by
  unfold selectionGenerateSteps
  dsimp only
  have h := selOuter_spec a 0 a.length rfl (by intro p q hpq hq hp; omega)
  refine eq_sortA_of_perm_of_sorted a _ h.1 ?_
  rw [sorted_iff_getD]
  intro p q hpq hq
  refine h.2 p q hpq ?_
  rw [selOuter_length a 0 a.length] at hq
  exact hq

theorem chain_of_adjacent (a : List Int) (m : Nat)
    (hadj : ∀ t : Nat, t < m → a.getD t 0 ≤ a.getD (t + 1) 0) :
    ∀ p q : Nat, p < q → q ≤ m → a.getD p 0 ≤ a.getD q 0 := by
  intro p q
  induction q with
  | zero => omega
  | succ q ih =>
    intro hpq hq
    by_cases hpe : p = q
    · rw [hpe]
      exact hadj q (by omega)
    · exact le_trans (ih (by omega) (by omega)) (hadj q (by omega))

theorem bubbleScan_spec (a : List Int) (j m : Nat) (sw : Bool)
    (hj : j ≤ m) (hm : m < a.length)
    (hpre : ∀ t : Nat, t < j → a.getD t 0 ≤ a.getD j 0) :
    (∀ t : Nat, m < t → (bubbleScan a j m sw).2.1.getD t 0 = a.getD t 0) ∧
      (∀ t : Nat, t < m →
        (bubbleScan a j m sw).2.1.getD t 0 ≤ (bubbleScan a j m sw).2.1.getD m 0) ∧
      (∀ b : Int, (∀ t : Nat, t ≤ m → a.getD t 0 ≤ b) →
        ∀ t : Nat, t ≤ m → (bubbleScan a j m sw).2.1.getD t 0 ≤ b) := by
  rw [bubbleScan]
  split
  · rename_i h
    split
    · rename_i hgt
      dsimp only
      set a2 := swapJS a j (j + 1) with ha2
      have hlen2 : a2.length = a.length := length_swapJS a j (j + 1)
      have haj : a2.getD j 0 = a.getD (j + 1) 0 :=
        getD_swapJS_left a j (j + 1) (by omega) (by omega)
      have haj1 : a2.getD (j + 1) 0 = a.getD j 0 :=
        getD_swapJS_right a j (j + 1) (by omega)
      have hother : ∀ t : Nat, t ≠ j → t ≠ j + 1 → a2.getD t 0 = a.getD t 0 :=
        fun t h1 h2 => getD_swapJS_other a j (j + 1) t h1 h2
      have hpre2 : ∀ t : Nat, t < j + 1 → a2.getD t 0 ≤ a2.getD (j + 1) 0 := by
        intro t ht
        rw [haj1]
        by_cases hte : t = j
        · rw [hte, haj]
          omega
        · rw [hother t hte (by omega)]
          exact hpre t (by omega)
      have ih := bubbleScan_spec a2 (j + 1) m true (by omega) (by omega) hpre2
      refine ⟨?_, ih.2.1, ?_⟩
      · intro t ht
        rw [ih.1 t ht, hother t (by omega) (by omega)]
      · intro b hb t ht
        refine ih.2.2 b ?_ t ht
        intro t2 ht2
        by_cases h1 : t2 = j
        · rw [h1, haj]
          exact hb (j + 1) (by omega)
        · by_cases h2 : t2 = j + 1
          · rw [h2, haj1]
            exact hb j (by omega)
          · rw [hother t2 h1 h2]
            exact hb t2 ht2
    · rename_i hle
      dsimp only
      have hpre2 : ∀ t : Nat, t < j + 1 → a.getD t 0 ≤ a.getD (j + 1) 0 := by
        intro t ht
        by_cases hte : t = j
        · rw [hte]
          omega
        · exact le_trans (hpre t (by omega)) (by omega)
      exact bubbleScan_spec a (j + 1) m sw (by omega) hm hpre2
  · rename_i h
    have hje : j = m := by omega
    refine ⟨fun t ht => rfl, ?_, fun b hb t ht => hb t ht⟩
    intro t ht
    rw [← hje]
    exact hpre t (by omega)
termination_by m - j

theorem bubbleScan_flag_true (a : List Int) (j m : Nat) :
    (bubbleScan a j m true).2.2 = true := by
  rw [bubbleScan]
  split
  · split
    · dsimp only
      exact bubbleScan_flag_true _ (j + 1) m
    · dsimp only
      exact bubbleScan_flag_true a (j + 1) m
  · rfl
termination_by m - j

theorem bubbleScan_flag_false (a : List Int) (j m : Nat) (sw : Bool)
    (hf : (bubbleScan a j m sw).2.2 = false) :
    (bubbleScan a j m sw).2.1 = a ∧
      ∀ t : Nat, j ≤ t → t < m → a.getD t 0 ≤ a.getD (t + 1) 0 := by
  rw [bubbleScan] at hf
  rw [bubbleScan]
  split
  · rename_i h
    split
    · rename_i hgt
      rw [dif_pos h, if_pos hgt] at hf
      dsimp only at hf
      rw [bubbleScan_flag_true] at hf
      cases hf
    · rename_i hle
      rw [dif_pos h, if_neg hle] at hf
      dsimp only at hf ⊢
      have ih := bubbleScan_flag_false a (j + 1) m sw hf
      refine ⟨ih.1, ?_⟩
      intro t ht htm
      by_cases hte : t = j
      · rw [hte]
        omega
      · exact ih.2 t (by omega) htm
  · exact ⟨rfl, fun t ht htm => by omega⟩
termination_by m - j

theorem bubbleOuter_spec (a : List Int) (i n : Nat) (hn : n = a.length)
    (hinv : ∀ p q : Nat, p < q → q < n → n - i ≤ q →
      a.getD p 0 ≤ a.getD q 0) :
    ∀ p q : Nat, p < q → q < n →
      (bubbleOuter a i n).2.getD p 0 ≤ (bubbleOuter a i n).2.getD q 0 := by
  rw [bubbleOuter]
  split
  · rename_i h
    dsimp only
    have hm : n - 1 - i < a.length := by omega
    have sp := bubbleScan_spec a 0 (n - 1 - i) false (by omega) hm
      (by intro t ht; omega)
    set r := bubbleScan a 0 (n - 1 - i) false with hr
    have hrlen : r.2.1.length = a.length := bubbleScan_length a 0 (n - 1 - i) false
    have hinv2 : ∀ p q : Nat, p < q → q < n → n - (i + 1) ≤ q →
        r.2.1.getD p 0 ≤ r.2.1.getD q 0 := by
      intro p q hpq hq hge
      by_cases hqm : q = n - 1 - i
      · rw [hqm]
        exact sp.2.1 p (by omega)
      · have hqgt : n - 1 - i < q := by omega
        rw [sp.1 q hqgt]
        by_cases hpm : n - 1 - i < p
        · rw [sp.1 p hpm]
          exact hinv p q hpq hq (by omega)
        · refine sp.2.2 (a.getD q 0) ?_ p (by omega)
          intro t ht
          exact hinv t q (by omega) hq (by omega)
    split
    · dsimp only
      exact bubbleOuter_spec r.2.1 (i + 1) n (by omega) hinv2
    · rename_i hflag
      dsimp only
      have hff := bubbleScan_flag_false a 0 (n - 1 - i) false
        (by rw [← hr] at *; simpa using hflag)
      intro p q hpq hq
      rw [hff.1]
      by_cases hqm : q ≤ n - 1 - i
      · refine chain_of_adjacent a (n - 1 - i) ?_ p q hpq hqm
        intro t ht
        exact hff.2 t (by omega) ht
      · exact hinv p q hpq hq (by omega)
  · rename_i h
    intro p q hpq hq
    exact hinv p q hpq hq (by omega)
termination_by n - 1 - i

theorem bubbleGenerateSteps_final (a : List Int) :
    (bubbleGenerateSteps a).2 = sortA a := by
  have hs := bubbleOuter_spec a 0 a.length rfl
    (by intro p q hpq hq hge; omega)
  have hperm := (bubbleOuter_emits a 0 a.length (le_refl _)).perm
  have heq : (bubbleGenerateSteps a).2 = (bubbleOuter a 0 a.length).2 := by
    unfold bubbleGenerateSteps
    dsimp only
    split
    · rfl
    · split <;> rfl
  rw [heq]
  refine eq_sortA_of_perm_of_sorted a _ hperm ?_
  rw [sorted_iff_getD]
  intro p q hpq hq
  exact hs p q hpq (by rw [hperm.length_eq] at hq; exact hq)

/-! ### Merge sort: the final array is the sorted permutation

The loop of `MergeSort.merge` writes, position by position from `left`,
exactly the functional merge of the two copied runs; `writeSeq` is that
sequential write and `seg` extracts a half-open index segment. -/

def writeSeq (w : List Int) (k : Nat) (xs : List Int) : List Int :=
  match xs with
  | [] => w
  | x :: rest => writeSeq (w.set k x) (k + 1) rest

def seg (w : List Int) (lo hi : Nat) : List Int := (w.drop lo).take (hi - lo)

theorem writeSeq_length (w : List Int) (k : Nat) (xs : List Int) :
    (writeSeq w k xs).length = w.length := by
  induction xs generalizing w k with
  | nil => rfl
  | cons x rest ih =>
    show (writeSeq (w.set k x) (k + 1) rest).length = w.length
    rw [ih, List.length_set]

theorem writeSeq_append (w : List Int) (k : Nat) (xs ys : List Int) :
    writeSeq w k (xs ++ ys) = writeSeq (writeSeq w k xs) (k + xs.length) ys := by
  induction xs generalizing w k with
  | nil => simp [writeSeq]
  | cons x rest ih =>
    show writeSeq (w.set k x) (k + 1) (rest ++ ys) = _
    rw [ih]
    have : k + 1 + rest.length = k + (rest.length + 1) := by omega
    rw [this]
    rfl

theorem writeSeq_get?_lt (w : List Int) (k : Nat) (xs : List Int) (t : Nat)
    (ht : t < k) : (writeSeq w k xs).get? t = w.get? t := by
  induction xs generalizing w k with
  | nil => rfl
  | cons x rest ih =>
    show (writeSeq (w.set k x) (k + 1) rest).get? t = w.get? t
    rw [ih _ _ (by omega)]
    simp [List.getElem?_set_ne (by omega : k ≠ t)]

theorem writeSeq_get?_ge (w : List Int) (k : Nat) (xs : List Int) (t : Nat)
    (ht : k + xs.length ≤ t) : (writeSeq w k xs).get? t = w.get? t := by
  induction xs generalizing w k with
  | nil => rfl
  | cons x rest ih =>
    show (writeSeq (w.set k x) (k + 1) rest).get? t = w.get? t
    rw [ih _ _ (by simp at ht ⊢; omega)]
    simp [List.getElem?_set_ne (by simp at ht; omega : k ≠ t)]

theorem writeSeq_get?_in (w : List Int) (k : Nat) (xs : List Int) (t : Nat)
    (hlen : k + xs.length ≤ w.length) (h1 : k ≤ t) (h2 : t < k + xs.length) :
    (writeSeq w k xs).get? t = xs.get? (t - k) := by
  induction xs generalizing w k with
  | nil => simp at h2; omega
  | cons x rest ih =>
    show (writeSeq (w.set k x) (k + 1) rest).get? t = _
    by_cases hte : t = k
    · rw [hte]
      rw [writeSeq_get?_lt _ _ _ _ (by omega)]
      have hk : k < w.length := by simp at hlen; omega
      simp [List.getElem?_set_self', List.getElem?_eq_getElem hk]
    · rw [ih (w.set k x) (k + 1) (by simp at hlen ⊢; omega) (by omega)
        (by simp at h2 ⊢; omega)]
      have : t - k = (t - (k + 1)) + 1 := by omega
      rw [this]
      rfl

theorem seg_length (w : List Int) (lo hi : Nat) (hlo : lo ≤ hi)
    (hhi : hi ≤ w.length) : (seg w lo hi).length = hi - lo := by
  simp [seg]
  omega

theorem seg_get?_lt (w : List Int) (lo hi t : Nat) (ht : t < hi - lo) :
    (seg w lo hi).get? t = w.get? (lo + t) := by
  unfold seg
  rw [List.get?_take ht, List.get?_drop]

theorem seg_whole (w : List Int) : seg w 0 w.length = w := by
  simp [seg]

theorem seg_split (w : List Int) (lo mid hi : Nat) (h1 : lo ≤ mid)
    (h2 : mid ≤ hi) : seg w lo hi = seg w lo mid ++ seg w mid hi := by
  unfold seg
  rw [show hi - lo = (mid - lo) + (hi - mid) by omega, List.take_add]
  congr 1
  rw [List.drop_drop]
  congr 2
  omega

theorem seg_congr (w1 w2 : List Int) (lo hi : Nat)
    (hpt : ∀ t : Nat, lo ≤ t → t < hi → w1.get? t = w2.get? t) :
    seg w1 lo hi = seg w2 lo hi := by
  refine List.ext_get? ?_
  intro t
  by_cases ht : t < hi - lo
  · rw [seg_get?_lt _ _ _ _ ht, seg_get?_lt _ _ _ _ ht]
    exact hpt (lo + t) (by omega) (by omega)
  · have h1 : (seg w1 lo hi).length ≤ t := by
      unfold seg
      simp
      omega
    have h2 : (seg w2 lo hi).length ≤ t := by
      unfold seg
      simp
      omega
    rw [List.get?_eq_none.mpr h1, List.get?_eq_none.mpr h2]

theorem seg_writeSeq (w : List Int) (k : Nat) (xs : List Int)
    (hlen : k + xs.length ≤ w.length) :
    seg (writeSeq w k xs) k (k + xs.length) = xs := by
  refine List.ext_get? ?_
  intro t
  by_cases ht : t < xs.length
  · rw [seg_get?_lt _ _ _ _ (by omega)]
    rw [writeSeq_get?_in w k xs (k + t) hlen (by omega) (by omega)]
    congr 1
    omega
  · have h1 : (seg (writeSeq w k xs) k (k + xs.length)).length ≤ t := by
      unfold seg
      simp [writeSeq_length]
      omega
    rw [List.get?_eq_none.mpr h1, List.get?_eq_none.mpr (by omega)]

/-- The comparison used by the engine's merge, as a Bool for `List.merge`. -/
def leB (x y : Int) : Bool := decide (x ≤ y)

theorem mergeDrain_eq (w T : List Int) (i k : Nat) :
    (mergeDrain w T i k).2.1 = writeSeq w k (T.drop i) ∧
      (mergeDrain w T i k).2.2 = k + (T.length - i) := by
  rw [mergeDrain]
  split
  · rename_i h
    dsimp only
    have ih := mergeDrain_eq (w.set k (T.getD i 0)) T (i + 1) (k + 1)
    refine ⟨?_, by rw [ih.2]; omega⟩
    rw [ih.1]
    rw [List.drop_eq_getElem_cons h, ← List.getD_eq_getElem T 0 h]
    rfl
  · rename_i h
    dsimp only
    rw [List.drop_eq_nil_of_le (by omega)]
    exact ⟨rfl, by omega⟩
termination_by T.length - i

theorem mergeLoop_eq (w L R : List Int) (left mid i j k : Nat) :
    writeSeq (mergeLoop w L R left mid i j k).2.1
        (mergeLoop w L R left mid i j k).2.2.2.2
        (L.drop (mergeLoop w L R left mid i j k).2.2.1 ++
          R.drop (mergeLoop w L R left mid i j k).2.2.2.1) =
      writeSeq w k (List.merge (L.drop i) (R.drop j) leB) := by
  rw [mergeLoop]
  split
  · rename_i h
    have hL : L.drop i = L.getD i 0 :: L.drop (i + 1) := by
      rw [List.drop_eq_getElem_cons h.1]
      congr 1
      exact (List.getD_eq_getElem L 0 h.1).symm
    have hR : R.drop j = R.getD j 0 :: R.drop (j + 1) := by
      rw [List.drop_eq_getElem_cons h.2]
      congr 1
      exact (List.getD_eq_getElem R 0 h.2).symm
    rw [hL, hR, List.cons_merge_cons]
    split
    · rename_i hle
      dsimp only
      rw [if_pos (by simpa [leB] using hle)]
      rw [← hR]
      exact mergeLoop_eq (w.set k (L.getD i 0)) L R left mid (i + 1) j (k + 1)
    · rename_i hgt
      dsimp only
      rw [if_neg (by simpa [leB] using hgt)]
      rw [← hL]
      exact mergeLoop_eq (w.set k (R.getD j 0)) L R left mid i (j + 1) (k + 1)
  · rename_i h
    dsimp only
    by_cases hiL : L.length ≤ i
    · rw [List.drop_eq_nil_of_le hiL]
      rw [List.nil_merge]
      rfl
    · have hjR : R.length ≤ j := by omega
      rw [List.drop_eq_nil_of_le hjR]
      rw [show ∀ xs : List Int, List.merge xs [] leB = xs by
        intro xs; cases xs <;> simp [List.merge]]
      rw [List.append_nil]
termination_by (L.length - i) + (R.length - j)
decreasing_by all_goals omega

theorem mergeJS_eq (w : List Int) (left mid right : Nat) :
    (mergeJS w left mid right).2 =
      writeSeq w left
        (List.merge ((w.drop left).take (mid + 1 - left))
          ((w.drop (mid + 1)).take (right - mid)) leB) := by
  unfold mergeJS
  dsimp only
  set L := (w.drop left).take (mid + 1 - left) with hLdef
  set R := (w.drop (mid + 1)).take (right - mid) with hRdef
  set r1 := mergeLoop w L R left mid 0 0 left with hr1
  have h2 := mergeDrain_eq r1.2.1 L r1.2.2.1 r1.2.2.2.2
  set r2 := mergeDrain r1.2.1 L r1.2.2.1 r1.2.2.2.2 with hr2
  have h3 := mergeDrain_eq r2.2.1 R r1.2.2.2.1 r2.2.2
  rw [h3.1, h2.1, h2.2]
  have hk2 : r1.2.2.2.2 + (L.length - r1.2.2.1) =
      r1.2.2.2.2 + (L.drop r1.2.2.1).length := by
    simp
  rw [hk2, ← writeSeq_append]
  have := mergeLoop_eq w L R left mid 0 0 left
  rw [← hr1] at this
  simpa using this

theorem sorted_of_short (l : List Int) (h : l.length ≤ 1) :
    l.Sorted (· ≤ ·) := by
  match l, h with
  | [], _ => exact List.sorted_nil
  | [x], _ => exact List.sorted_singleton x

theorem mergeJS_spec (w : List Int) (left mid right : Nat)
    (hlm : left ≤ mid) (hmr : mid < right) (hr : right < w.length)
    (hsL : (seg w left (mid + 1)).Sorted (· ≤ ·))
    (hsR : (seg w (mid + 1) (right + 1)).Sorted (· ≤ ·)) :
    (mergeJS w left mid right).2.length = w.length ∧
      (∀ t : Nat, (t < left ∨ right < t) →
        (mergeJS w left mid right).2.get? t = w.get? t) ∧
      (seg (mergeJS w left mid right).2 left (right + 1)).Sorted (· ≤ ·) ∧
      List.Perm (seg (mergeJS w left mid right).2 left (right + 1))
        (seg w left (right + 1)) := by
  have hL : seg w left (mid + 1) = (w.drop left).take (mid + 1 - left) := rfl
  have hR : seg w (mid + 1) (right + 1) = (w.drop (mid + 1)).take (right - mid) := by
    unfold seg
    congr 1
    omega
  have hLlen : (seg w left (mid + 1)).length = mid + 1 - left :=
    seg_length w left (mid + 1) (by omega) (by omega)
  have hRlen : (seg w (mid + 1) (right + 1)).length = right - mid := by
    rw [seg_length w (mid + 1) (right + 1) (by omega) (by omega)]
    omega
  set M := List.merge (seg w left (mid + 1)) (seg w (mid + 1) (right + 1)) leB
    with hM
  have hMeq : (mergeJS w left mid right).2 = writeSeq w left M := by
    rw [mergeJS_eq]
    rw [hM, hL, hR]
  have hMlen : M.length = right + 1 - left := by
    rw [hM, List.length_merge, hLlen, hRlen]
    omega
  have hbound : left + M.length ≤ w.length := by omega
  refine ⟨by rw [hMeq, writeSeq_length], ?_, ?_, ?_⟩
  · intro t ht
    rw [hMeq]
    rcases ht with h1 | h1
    · exact writeSeq_get?_lt w left M t h1
    · exact writeSeq_get?_ge w left M t (by omega)
  · have hseg : seg (mergeJS w left mid right).2 left (right + 1) = M := by
      rw [hMeq]
      have := seg_writeSeq w left M hbound
      rw [show left + M.length = right + 1 by omega] at this
      exact this
    rw [hseg, hM]
    have := List.Sorted.merge (r := (· ≤ ·)) hsL hsR
    simpa [leB] using this
  · have hseg : seg (mergeJS w left mid right).2 left (right + 1) = M := by
      rw [hMeq]
      have := seg_writeSeq w left M hbound
      rw [show left + M.length = right + 1 by omega] at this
      exact this
    rw [hseg, hM]
    refine (List.merge_perm_append _).trans ?_
    rw [seg_split w left (mid + 1) (right + 1) (by omega) (by omega)]

theorem mergeSortRec_spec (w : List Int) (left right : Int)
    (hl : 0 ≤ left) (hr : right < (w.length : Int)) :
    (∀ t : Nat, ((t : Int) < left ∨ right < (t : Int)) →
      (mergeSortRec w left right).2.get? t = w.get? t) ∧
      List.Perm (seg (mergeSortRec w left right).2 left.toNat (right + 1).toNat)
        (seg w left.toNat (right + 1).toNat) ∧
      (seg (mergeSortRec w left right).2 left.toNat (right + 1).toNat).Sorted (· ≤ ·) := by
  rw [mergeSortRec]
  split
  · rename_i h
    refine ⟨fun t ht => rfl, List.Perm.refl _, ?_⟩
    refine sorted_of_short _ ?_
    unfold seg
    simp
    omega
  · rename_i h
    dsimp only
    set mid := left + (((right - left).toNat / 2 : Nat) : Int) with hmid
    have hmb : left ≤ mid ∧ mid < right := by
      rw [hmid]
      omega
    have len1 := mergeSortRec_length w left mid
    set w1 := (mergeSortRec w left mid).2 with hw1
    have sp1 := mergeSortRec_spec w left mid hl (by omega)
    rw [← hw1] at sp1
    have len2 := mergeSortRec_length w1 (mid + 1) right
    set w2 := (mergeSortRec w1 (mid + 1) right).2 with hw2
    have sp2 := mergeSortRec_spec w1 (mid + 1) right (by omega) (by omega)
    rw [← hw2] at sp2
    have hltn : (left.toNat : Int) = left := by omega
    have hmtn : (mid.toNat : Int) = mid := by omega
    have hrtn : (right.toNat : Int) = right := by omega
    have hm1 : (mid + 1).toNat = mid.toNat + 1 := by omega
    have hr1 : (right + 1).toNat = right.toNat + 1 := by omega
    have hw2len : right.toNat < w2.length := by omega
    -- the two sorted runs of w2
    have hsegL : seg w2 left.toNat (mid.toNat + 1) = seg w1 left.toNat (mid.toNat + 1) := by
      refine seg_congr w2 w1 _ _ ?_
      intro t ht1 ht2
      refine sp2.1 t ?_
      left
      omega
    have hsL : (seg w2 left.toNat (mid.toNat + 1)).Sorted (· ≤ ·) := by
      rw [hsegL]
      have := sp1.2.2
      rw [hm1] at this
      exact this
    have hsR : (seg w2 (mid.toNat + 1) (right.toNat + 1)).Sorted (· ≤ ·) := by
      have := sp2.2.2
      rw [hm1, hr1] at this
      exact this
    have hjs := mergeJS_spec w2 left.toNat mid.toNat right.toNat
      (by omega) (by omega) hw2len hsL hsR
    refine ⟨?_, ?_, ?_⟩
    · intro t ht
      rw [hjs.2.1 t (by omega)]
      rw [sp2.1 t (by omega), sp1.1 t (by omega)]
    · rw [hr1]
      refine (hjs.2.2.2).trans ?_
      rw [seg_split w2 left.toNat (mid.toNat + 1) (right.toNat + 1) (by omega) (by omega),
        seg_split w left.toNat (mid.toNat + 1) (right.toNat + 1) (by omega) (by omega)]
      refine List.Perm.append ?_ ?_
      · rw [hsegL]
        have := sp1.2.1
        rw [hm1] at this
        exact this
      · have hsegR : seg w1 (mid.toNat + 1) (right.toNat + 1) =
            seg w (mid.toNat + 1) (right.toNat + 1) := by
          refine seg_congr w1 w _ _ ?_
          intro t ht1 ht2
          refine sp1.1 t ?_
          right
          omega
        have := sp2.2.1
        rw [hm1, hr1] at this
        exact this.trans (by rw [hsegR])
    · rw [hr1]
      exact hjs.2.2.1
termination_by (right - left).toNat
decreasing_by all_goals omega

theorem mergeGenerateSteps_final (a : List Int) :
    (mergeGenerateSteps a).2 = sortA a := by
  unfold mergeGenerateSteps
  dsimp only
  have sp := mergeSortRec_spec a 0 ((a.length : Int) - 1) (by omega) (by omega)
  have hlen := mergeSortRec_length a 0 ((a.length : Int) - 1)
  have h0 : ((0 : Int)).toNat = 0 := rfl
  have hn : (((a.length : Int) - 1) + 1).toNat = a.length := by omega
  rw [h0, hn] at sp
  have hws : seg (mergeSortRec a 0 ((a.length : Int) - 1)).2 0 a.length =
      (mergeSortRec a 0 ((a.length : Int) - 1)).2 := by
    have := seg_whole (mergeSortRec a 0 ((a.length : Int) - 1)).2
    rw [hlen] at this
    exact this
  rw [hws, seg_whole] at sp
  exact eq_sortA_of_perm_of_sorted a _ sp.2.1 sp.2.2

/-! ### Quick sort: the final array is the sorted permutation -/

theorem get?_eq_some_getD (w : List Int) (t : Nat) (h : t < w.length) :
    w.get? t = some (w.getD t 0) := by
  rw [List.getD_eq_getElem w 0 h]
  exact List.get?_eq_get h

theorem seg_decomp (w : List Int) (lo hi : Nat) (h : lo ≤ hi) :
    w = w.take lo ++ seg w lo hi ++ w.drop hi := by
  unfold seg
  rw [List.append_assoc]
  have h1 : (w.drop lo).take (hi - lo) ++ w.drop hi = w.drop lo := by
    have h2 : w.drop hi = (w.drop lo).drop (hi - lo) := by
      rw [List.drop_drop]
      congr 1
      omega
    rw [h2, List.take_append_drop]
  rw [h1, List.take_append_drop]

theorem perm_seg (w1 w2 : List Int) (lo hi : Nat) (hperm : List.Perm w1 w2)
    (hlohi : lo ≤ hi)
    (hlo : ∀ t : Nat, t < lo → w1.get? t = w2.get? t)
    (hhi : ∀ t : Nat, hi ≤ t → w1.get? t = w2.get? t) :
    List.Perm (seg w1 lo hi) (seg w2 lo hi) := by
  have hlen : w1.length = w2.length := hperm.length_eq
  have htake : w1.take lo = w2.take lo := by
    refine List.ext_get? ?_
    intro t
    by_cases ht : t < lo
    · rw [List.get?_take ht, List.get?_take ht]
      exact hlo t ht
    · have e1 : (w1.take lo).length ≤ t := by simp; omega
      have e2 : (w2.take lo).length ≤ t := by simp; omega
      rw [List.get?_eq_none.mpr e1, List.get?_eq_none.mpr e2]
  have hdrop : w1.drop hi = w2.drop hi := by
    refine List.ext_get? ?_
    intro t
    rw [List.get?_drop, List.get?_drop]
    exact hhi (hi + t) (by omega)
  refine List.perm_iff_count.mpr ?_
  intro x
  have hc := List.perm_iff_count.mp hperm x
  rw [seg_decomp w1 lo hi hlohi] at hc
  conv at hc => rw [seg_decomp w2 lo hi hlohi]
  simp only [List.count_append] at hc
  rw [htake, hdrop] at hc
  omega

theorem seg_single (w : List Int) (p : Nat) (h : p < w.length) :
    seg w p (p + 1) = [w.getD p 0] := by
  refine List.ext_get? ?_
  intro t
  match t with
  | 0 =>
    rw [seg_get?_lt _ _ _ _ (by omega)]
    rw [show p + 0 = p from rfl, get?_eq_some_getD w p h]
    rfl
  | t + 1 =>
    have e1 : (seg w p (p + 1)).length ≤ t + 1 := by
      unfold seg
      simp
    rw [List.get?_eq_none.mpr e1]
    rfl

theorem mem_seg (w : List Int) (lo hi : Nat) (x : Int) (hhi : hi ≤ w.length) :
    x ∈ seg w lo hi ↔
      ∃ t : Nat, lo ≤ t ∧ t < hi ∧ w.get? t = some x := by
  constructor
  · intro hx
    obtain ⟨n, hn⟩ := List.get_of_mem hx
    have hlt : n.1 < hi - lo := by
      have := n.2
      unfold seg at this
      simp at this
      omega
    refine ⟨lo + n.1, by omega, by omega, ?_⟩
    rw [← seg_get?_lt w lo hi n.1 hlt]
    rw [List.get?_eq_get n.2, hn]
  · rintro ⟨t, h1, h2, h3⟩
    have hget : (seg w lo hi).get? (t - lo) = some x := by
      rw [seg_get?_lt _ _ _ _ (by omega)]
      rw [show lo + (t - lo) = t by omega]
      exact h3
    exact List.get?_mem hget

theorem get?_swapJS_other (a : List Int) (i j k : Nat) (hik : k ≠ i)
    (hjk : k ≠ j) : (swapJS a i j).get? k = a.get? k := by
  unfold swapJS
  rw [List.get?_eq_getElem?, List.get?_eq_getElem?,
    List.getElem?_set_ne (show j ≠ k from fun hc => hjk hc.symm),
    List.getElem?_set_ne (show i ≠ k from fun hc => hik hc.symm)]

theorem qsPartLoop_zones (a : List Int) (low high i j pivot : Int)
    (hl : 0 ≤ low) (hLo : low - 1 ≤ i) (hij : i < j) (hjl : low ≤ j)
    (hjh : j ≤ high) (hh : high < (a.length : Int))
    (hA : ∀ t : Nat, low ≤ (t : Int) → (t : Int) ≤ i → a.getD t 0 < pivot)
    (hB : ∀ t : Nat, i < (t : Int) → (t : Int) < j → pivot ≤ a.getD t 0) :
    (∀ t : Nat, ((t : Int) < low ∨ high ≤ (t : Int)) →
        (qsPartLoop a high i j pivot).2.1.get? t = a.get? t) ∧
      (∀ t : Nat, low ≤ (t : Int) →
        (t : Int) ≤ (qsPartLoop a high i j pivot).2.2 →
        (qsPartLoop a high i j pivot).2.1.getD t 0 < pivot) ∧
      (∀ t : Nat, (qsPartLoop a high i j pivot).2.2 < (t : Int) →
        (t : Int) < high →
        pivot ≤ (qsPartLoop a high i j pivot).2.1.getD t 0) := by
  rw [qsPartLoop]
  split
  · rename_i hjlt
    split
    · rename_i hlt
      split
      · rename_i hne
        dsimp only
        set a2 := swapJS a (i + 1).toNat j.toNat with ha2
        have hlen2 : a2.length = a.length := length_swapJS a _ _
        have hi1j : (i + 1).toNat ≠ j.toNat := by omega
        have hv1 : a2.getD (i + 1).toNat 0 = a.getD j.toNat 0 :=
          getD_swapJS_left a _ _ hi1j (by omega)
        have hv2 : a2.getD j.toNat 0 = a.getD (i + 1).toNat 0 :=
          getD_swapJS_right a _ _ (by omega)
        have hvo : ∀ t : Nat, t ≠ (i + 1).toNat → t ≠ j.toNat →
            a2.getD t 0 = a.getD t 0 :=
          fun t h1 h2 => getD_swapJS_other a _ _ t h1 h2
        have hA2 : ∀ t : Nat, low ≤ (t : Int) → (t : Int) ≤ i + 1 →
            a2.getD t 0 < pivot := by
          intro t h1 h2
          by_cases hte : (t : Int) = i + 1
          · rw [show t = (i + 1).toNat by omega, hv1]
            exact hlt
          · rw [hvo t (by omega) (by omega)]
            exact hA t h1 (by omega)
        have hB2 : ∀ t : Nat, i + 1 < (t : Int) → (t : Int) < j + 1 →
            pivot ≤ a2.getD t 0 := by
          intro t h1 h2
          by_cases hte : (t : Int) = j
          · rw [show t = j.toNat by omega, hv2]
            refine hB (i + 1).toNat ?_ ?_ <;> omega
          · rw [hvo t (by omega) (by omega)]
            exact hB t (by omega) (by omega)
        have ih := qsPartLoop_zones a2 low high (i + 1) (j + 1) pivot hl
          (by omega) (by omega) (by omega) (by omega) (by omega) hA2 hB2
        refine ⟨?_, ih.2.1, ih.2.2⟩
        intro t ht
        rw [ih.1 t ht, ha2, get?_swapJS_other a _ _ t (by omega) (by omega)]
      · rename_i heq
        dsimp only
        have hA2 : ∀ t : Nat, low ≤ (t : Int) → (t : Int) ≤ i + 1 →
            a.getD t 0 < pivot := by
          intro t h1 h2
          by_cases hte : (t : Int) = i + 1
          · rw [show t = j.toNat by omega]
            exact hlt
          · exact hA t h1 (by omega)
        have hB2 : ∀ t : Nat, i + 1 < (t : Int) → (t : Int) < j + 1 →
            pivot ≤ a.getD t 0 := by
          intro t h1 h2
          omega
        exact qsPartLoop_zones a low high (i + 1) (j + 1) pivot hl
          (by omega) (by omega) (by omega) (by omega) hh hA2 hB2
    · rename_i hge
      dsimp only
      have hB2 : ∀ t : Nat, i < (t : Int) → (t : Int) < j + 1 →
          pivot ≤ a.getD t 0 := by
        intro t h1 h2
        by_cases hte : (t : Int) = j
        · rw [show t = j.toNat by omega]
          omega
        · exact hB t h1 (by omega)
      exact qsPartLoop_zones a low high i (j + 1) pivot hl hLo
        (by omega) (by omega) (by omega) hh hA hB2
  · rename_i hend
    refine ⟨fun t ht => rfl, ?_, ?_⟩
    · intro t h1 h2
      exact hA t h1 h2
    · intro t h1 h2
      exact hB t h1 (by omega)
termination_by (high - j).toNat
decreasing_by all_goals omega

theorem qsPartition_spec (a : List Int) (low high : Int)
    (hl : 0 ≤ low) (hlh : low < high) (hh : high < (a.length : Int)) :
    (∀ t : Nat, ((t : Int) < low ∨ high < (t : Int)) →
        (qsPartition a low high).2.1.get? t = a.get? t) ∧
      (qsPartition a low high).2.1.getD (qsPartition a low high).2.2.toNat 0 =
        a.getD high.toNat 0 ∧
      (∀ t : Nat, low ≤ (t : Int) → (t : Int) < (qsPartition a low high).2.2 →
        (qsPartition a low high).2.1.getD t 0 < a.getD high.toNat 0) ∧
      (∀ t : Nat, (qsPartition a low high).2.2 < (t : Int) →
        (t : Int) ≤ high →
        a.getD high.toNat 0 ≤ (qsPartition a low high).2.1.getD t 0) := by
  have hge := qsPartLoop_i_ge a high (low - 1) low (a.getD high.toNat 0)
  have hlt := qsPartLoop_i_lt a high (low - 1) low (a.getD high.toNat 0)
    (by omega) (by omega)
  have hlen := qsPartLoop_length a high (low - 1) low (a.getD high.toNat 0)
  have hz := qsPartLoop_zones a low high (low - 1) low (a.getD high.toNat 0)
    hl (by omega) (by omega) (by omega) (by omega) hh
    (by intro t h1 h2; omega) (by intro t h1 h2; omega)
  simp only [qsPartition]
  split
  · rename_i hne
    dsimp only
    set r := qsPartLoop a high (low - 1) low (a.getD high.toNat 0) with hr
    set p := r.2.2 + 1 with hp
    have hpb : low ≤ p ∧ p ≤ high := by omega
    have hplt : p < high := by
      rcases lt_or_eq_of_le hpb.2 with h1 | h1
      · exact h1
      · exact absurd h1 hne
    have hpn : p.toNat ≠ high.toNat := by omega
    have hplen : p.toNat < r.2.1.length := by omega
    have hhlen : high.toNat < r.2.1.length := by omega
    have hpivot : r.2.1.getD high.toNat 0 = a.getD high.toNat 0 := by
      have := hz.1 high.toNat (by omega)
      rw [get?_eq_some_getD _ _ hhlen, get?_eq_some_getD a high.toNat (by omega)] at this
      exact Option.some.inj this
    have hv1 : (swapJS r.2.1 p.toNat high.toNat).getD p.toNat 0 =
        r.2.1.getD high.toNat 0 := getD_swapJS_left r.2.1 _ _ hpn hplen
    have hv2 : (swapJS r.2.1 p.toNat high.toNat).getD high.toNat 0 =
        r.2.1.getD p.toNat 0 := getD_swapJS_right r.2.1 _ _ hhlen
    have hvo : ∀ t : Nat, t ≠ p.toNat → t ≠ high.toNat →
        (swapJS r.2.1 p.toNat high.toNat).getD t 0 = r.2.1.getD t 0 :=
      fun t h1 h2 => getD_swapJS_other r.2.1 _ _ t h1 h2
    refine ⟨?_, ?_, ?_, ?_⟩
    · intro t ht
      rw [get?_swapJS_other r.2.1 _ _ t (by omega) (by omega)]
      exact hz.1 t (by omega)
    · rw [hv1, hpivot]
    · intro t h1 h2
      rw [hvo t (by omega) (by omega)]
      exact hz.2.1 t h1 (by omega)
    · intro t h1 h2
      by_cases hte : (t : Int) = high
      · rw [show t = high.toNat by omega, hv2]
        exact hz.2.2 p.toNat (by omega) (by omega)
      · rw [hvo t (by omega) (by omega)]
        exact hz.2.2 t (by omega) (by omega)
  · rename_i heq
    dsimp only
    set r := qsPartLoop a high (low - 1) low (a.getD high.toNat 0) with hr
    have hph : r.2.2 + 1 = high := by
      by_contra hc
      exact heq hc
    have hpivot : r.2.1.getD high.toNat 0 = a.getD high.toNat 0 := by
      have := hz.1 high.toNat (by omega)
      rw [get?_eq_some_getD _ _ (by omega), get?_eq_some_getD a high.toNat (by omega)] at this
      exact Option.some.inj this
    refine ⟨?_, ?_, ?_, ?_⟩
    · intro t ht
      exact hz.1 t (by omega)
    · rw [show (r.2.2 + 1).toNat = high.toNat by omega]
      exact hpivot
    · intro t h1 h2
      exact hz.2.1 t h1 (by omega)
    · intro t h1 h2
      omega

theorem quickSortRec_spec (a : List Int) (low high : Int)
    (hl : 0 ≤ low) (hh : high < (a.length : Int)) :
    (∀ t : Nat, ((t : Int) < low ∨ high < (t : Int)) →
        (quickSortRec a low high).2.get? t = a.get? t) ∧
      (seg (quickSortRec a low high).2 low.toNat (high + 1).toNat).Sorted (· ≤ ·) := by
  rw [quickSortRec]
  split
  · rename_i hbase
    have hshort : ∀ b : List Int, b = a →
        (seg b low.toNat (high + 1).toNat).Sorted (· ≤ ·) := by
      intro b hb
      refine sorted_of_short _ ?_
      unfold seg
      simp
      omega
    split
    · exact ⟨fun t ht => rfl, hshort a rfl⟩
    · exact ⟨fun t ht => rfl, hshort a rfl⟩
  · rename_i hlh
    dsimp only
    have hpb := qsPartition_pos_bound a low high (by omega)
    have plen := qsPartition_length a low high
    have sp := qsPartition_spec a low high hl (by omega) hh
    set a1 := (qsPartition a low high).2.1 with ha1
    set p := (qsPartition a low high).2.2 with hp2
    set pivot := a.getD high.toNat 0 with hpiv
    have hperm1 := (quickSortRec_emits a1 low (p - 1) hl (by omega)).perm
    have len1 := quickSortRec_length a1 low (p - 1)
    have s1 := quickSortRec_spec a1 low (p - 1) hl (by omega)
    set w1 := (quickSortRec a1 low (p - 1)).2 with hw1
    have hperm2 := (quickSortRec_emits w1 (p + 1) high (by omega) (by omega)).perm
    have len2 := quickSortRec_length w1 (p + 1) high
    have s2 := quickSortRec_spec w1 (p + 1) high (by omega) (by omega)
    set w2 := (quickSortRec w1 (p + 1) high).2 with hw2
    have hltn : (low.toNat : Int) = low := by omega
    have hptn : (p.toNat : Int) = p := by omega
    have hhtn : (high.toNat : Int) = high := by omega
    have hp1 : (p - 1 + 1).toNat = p.toNat := by omega
    have hpp1 : (p + 1).toNat = p.toNat + 1 := by omega
    have hhi1 : (high + 1).toNat = high.toNat + 1 := by omega
    refine ⟨?_, ?_⟩
    · intro t ht
      rw [s2.1 t (by omega), s1.1 t (by omega), sp.1 t (by omega)]
    · -- the sorted segment [low, high] of w2
      have hsegL : seg w2 low.toNat p.toNat = seg w1 low.toNat p.toNat := by
        refine seg_congr w2 w1 _ _ ?_
        intro t h1 h2
        exact s2.1 t (by omega)
      have hsortL : (seg w2 low.toNat p.toNat).Sorted (· ≤ ·) := by
        rw [hsegL]
        have := s1.2
        rw [hp1] at this
        exact this
      have hsortR : (seg w2 (p.toNat + 1) (high.toNat + 1)).Sorted (· ≤ ·) := by
        have := s2.2
        rw [hpp1, hhi1] at this
        exact this
      have hmid : w2.getD p.toNat 0 = pivot := by
        have h1 : w2.get? p.toNat = a1.get? p.toNat := by
          rw [s2.1 p.toNat (by omega), s1.1 p.toNat (by omega)]
        rw [get?_eq_some_getD w2 p.toNat (by omega),
          get?_eq_some_getD a1 p.toNat (by omega)] at h1
        rw [Option.some.inj h1, sp.2.1]
      have hboundL : ∀ x ∈ seg w2 low.toNat p.toNat, x < pivot := by
        intro x hx
        rw [hsegL] at hx
        have hpseg := perm_seg w1 a1 low.toNat p.toNat hperm1 (by omega)
          (fun t htl => s1.1 t (by omega)) (fun t htg => s1.1 t (by omega))
        rw [List.Perm.mem_iff hpseg] at hx
        obtain ⟨t, ht1, ht2, ht3⟩ := (mem_seg a1 low.toNat p.toNat x (by omega)).mp hx
        rw [get?_eq_some_getD a1 t (by omega)] at ht3
        rw [← Option.some.inj ht3]
        exact sp.2.2.1 t (by omega) (by omega)
      have hboundR : ∀ x ∈ seg w2 (p.toNat + 1) (high.toNat + 1), pivot ≤ x := by
        intro x hx
        have hpseg := perm_seg w2 w1 (p.toNat + 1) (high.toNat + 1) hperm2 (by omega)
          (fun t htl => s2.1 t (by omega)) (fun t htg => s2.1 t (by omega))
        rw [List.Perm.mem_iff hpseg] at hx
        have hsegR : seg w1 (p.toNat + 1) (high.toNat + 1) =
            seg a1 (p.toNat + 1) (high.toNat + 1) := by
          refine seg_congr w1 a1 _ _ ?_
          intro t h1 h2
          exact s1.1 t (by omega)
        rw [hsegR] at hx
        obtain ⟨t, ht1, ht2, ht3⟩ :=
          (mem_seg a1 (p.toNat + 1) (high.toNat + 1) x (by omega)).mp hx
        rw [get?_eq_some_getD a1 t (by omega)] at ht3
        rw [← Option.some.inj ht3]
        exact sp.2.2.2 t (by omega) (by omega)
      rw [hhi1]
      rw [seg_split w2 low.toNat p.toNat (high.toNat + 1) (by omega) (by omega)]
      rw [seg_split w2 p.toNat (p.toNat + 1) (high.toNat + 1) (by omega) (by omega)]
      rw [seg_single w2 p.toNat (by omega)]
      rw [show ∀ l1 l2 : List Int, ((l1 ++ l2).Sorted (· ≤ ·) ↔ l1.Sorted (· ≤ ·) ∧ l2.Sorted (· ≤ ·) ∧ ∀ x ∈ l1, ∀ y ∈ l2, x ≤ y) from fun l1 l2 => List.pairwise_append]
      refine ⟨hsortL, ?_, ?_⟩
      · rw [show ∀ l1 l2 : List Int, ((l1 ++ l2).Sorted (· ≤ ·) ↔ l1.Sorted (· ≤ ·) ∧ l2.Sorted (· ≤ ·) ∧ ∀ x ∈ l1, ∀ y ∈ l2, x ≤ y) from fun l1 l2 => List.pairwise_append]
        refine ⟨List.sorted_singleton _, hsortR, ?_⟩
        intro x hx y hy
        rw [List.mem_singleton.mp hx, hmid]
        exact hboundR y hy
      · intro x hx y hy
        rcases List.mem_append.mp hy with h1 | h1
        · rw [List.mem_singleton.mp h1, hmid]
          exact le_of_lt (hboundL x hx)
        · exact le_trans (le_of_lt (hboundL x hx)) (hboundR y h1)
termination_by (high + 1 - low).toNat
decreasing_by
  · have := qsPartition_pos_bound a low high (by omega)
    omega
  · have := qsPartition_pos_bound a low high (by omega)
    omega

theorem quickGenerateSteps_final (a : List Int) :
    (quickGenerateSteps a).2 = sortA a := by
  unfold quickGenerateSteps
  dsimp only
  have sp := quickSortRec_spec a 0 ((a.length : Int) - 1) (by omega) (by omega)
  have hperm := (quickSortRec_emits a 0 ((a.length : Int) - 1) (by omega) (by omega)).perm
  have hlen := quickSortRec_length a 0 ((a.length : Int) - 1)
  refine eq_sortA_of_perm_of_sorted a _ hperm ?_
  have h0 : ((0 : Int)).toNat = 0 := rfl
  have hn : (((a.length : Int) - 1) + 1).toNat = a.length := by omega
  rw [h0, hn] at sp
  have hws : seg (quickSortRec a 0 ((a.length : Int) - 1)).2 0 a.length =
      (quickSortRec a 0 ((a.length : Int) - 1)).2 := by
    have := seg_whole (quickSortRec a 0 ((a.length : Int) - 1)).2
    rw [hlen] at this
    exact this
  rw [hws] at sp
  exact sp.2

/-! ### Heap sort: the final array is the sorted permutation -/

/-- Heap-order at node `j` for heap size `n`: each present child is at most
the parent. -/
def HeapNode (a : List Int) (n j : Nat) : Prop :=
  (2 * j + 1 < n → a.getD (2 * j + 1) 0 ≤ a.getD j 0) ∧
    (2 * j + 2 < n → a.getD (2 * j + 2) 0 ≤ a.getD j 0)

/-- Index `t` lies in the subtree rooted at `i` of the implicit binary
heap. -/
inductive Desc (i : Nat) : Nat → Prop where
  | refl : Desc i i
  | left {t : Nat} : Desc i t → Desc i (2 * t + 1)
  | right {t : Nat} : Desc i t → Desc i (2 * t + 2)

theorem Desc.ge {i t : Nat} (h : Desc i t) : i ≤ t := by
  induction h with
  | refl => exact le_refl i
  | left h ih => omega
  | right h ih => omega

theorem Desc.lower {i t : Nat} (h : Desc i t) : t = i ∨ 2 * i + 1 ≤ t := by
  induction h with
  | refl => exact Or.inl rfl
  | left h ih =>
    have := h.ge
    omega
  | right h ih =>
    have := h.ge
    omega

theorem Desc.trans {i j t : Nat} (h1 : Desc i j) (h2 : Desc j t) : Desc i t := by
  induction h2 with
  | refl => exact h1
  | left h ih => exact Desc.left ih
  | right h ih => exact Desc.right ih

theorem heapLg1_ge (a : List Int) (n i : Nat) :
    a.getD i 0 ≤ a.getD (heapLg1 a n i) 0 ∧
      (2 * i + 1 < n → a.getD (2 * i + 1) 0 ≤ a.getD (heapLg1 a n i) 0) := by
  unfold heapLg1
  split
  · rename_i h
    exact ⟨le_of_lt h.2, fun _ => le_refl _⟩
  · rename_i h
    refine ⟨le_refl _, fun hc => ?_⟩
    simp only [not_and, not_lt] at h
    exact h hc

theorem heapLargest_ge (a : List Int) (n i : Nat) :
    a.getD i 0 ≤ a.getD (heapLargest a n i) 0 ∧
      (2 * i + 1 < n → a.getD (2 * i + 1) 0 ≤ a.getD (heapLargest a n i) 0) ∧
      (2 * i + 2 < n → a.getD (2 * i + 2) 0 ≤ a.getD (heapLargest a n i) 0) := by
  have h1 := heapLg1_ge a n i
  unfold heapLargest
  split
  · rename_i h
    exact ⟨le_trans h1.1 (le_of_lt h.2), fun hc => le_trans (h1.2 hc) (le_of_lt h.2),
      fun _ => le_refl _⟩
  · rename_i h
    simp only [not_and, not_lt] at h
    exact ⟨h1.1, h1.2, fun hc => h hc⟩

theorem heapLg1_cases (a : List Int) (n i : Nat) :
    heapLg1 a n i = i ∨ (heapLg1 a n i = 2 * i + 1 ∧ 2 * i + 1 < n) := by
  unfold heapLg1
  split
  · rename_i h
    exact Or.inr ⟨rfl, h.1⟩
  · exact Or.inl rfl

theorem heapLargest_cases (a : List Int) (n i : Nat) :
    heapLargest a n i = i ∨
      (heapLargest a n i = 2 * i + 1 ∧ 2 * i + 1 < n) ∨
      (heapLargest a n i = 2 * i + 2 ∧ 2 * i + 2 < n) := by
  unfold heapLargest
  split
  · rename_i h
    exact Or.inr (Or.inr ⟨rfl, h.1⟩)
  · rcases heapLg1_cases a n i with h1 | h1
    · exact Or.inl h1
    · exact Or.inr (Or.inl h1)

theorem getD_eq_of_get?_eq {w1 w2 : List Int} {t : Nat}
    (h : w1.get? t = w2.get? t) : w1.getD t 0 = w2.getD t 0 := by
  rw [List.getD_eq_getElem?_getD, List.getD_eq_getElem?_getD,
    ← List.get?_eq_getElem?, ← List.get?_eq_getElem?, h]

theorem heapify_spec (a : List Int) (n i : Nat) (hn : n ≤ a.length)
    (hpre : ∀ j : Nat, i < j → HeapNode a n j) :
    (∀ t : Nat, ¬ Desc i t → (heapify a n i).2.get? t = a.get? t) ∧
      (∀ t : Nat, n ≤ t → (heapify a n i).2.get? t = a.get? t) ∧
      (∀ j : Nat, i ≤ j → HeapNode (heapify a n i).2 n j) ∧
      ((heapify a n i).2.getD i 0 ≤ a.getD i 0 ∨
        (2 * i + 1 < n ∧ (heapify a n i).2.getD i 0 ≤ a.getD (2 * i + 1) 0) ∨
        (2 * i + 2 < n ∧ (heapify a n i).2.getD i 0 ≤ a.getD (2 * i + 2) 0)) := by
  rw [heapify]
  split
  · rename_i hne
    dsimp only
    have hb : i < heapLargest a n i ∧ heapLargest a n i < n := by
      rcases heapLargest_bound a n i with h1 | h1
      · exact absurd h1 hne
      · exact h1
    have hge := heapLargest_ge a n i
    have hcase := heapLargest_cases a n i
    set lg := heapLargest a n i with hlg
    have hdlg : Desc i lg := by
      rcases hcase with h1 | h1 | h1
      · omega
      · rw [h1.1]; exact Desc.left Desc.refl
      · rw [h1.1]; exact Desc.right Desc.refl
    set a2 := swapJS a i lg with ha2
    have hlen2 : a2.length = a.length := length_swapJS a i lg
    have hv1 : a2.getD i 0 = a.getD lg 0 :=
      getD_swapJS_left a i lg (by omega) (by omega)
    have hv2 : a2.getD lg 0 = a.getD i 0 :=
      getD_swapJS_right a i lg (by omega)
    have hvo : ∀ t : Nat, t ≠ i → t ≠ lg → a2.get? t = a.get? t :=
      fun t h1 h2 => get?_swapJS_other a i lg t h1 h2
    have hvoD : ∀ t : Nat, t ≠ i → t ≠ lg → a2.getD t 0 = a.getD t 0 :=
      fun t h1 h2 => getD_eq_of_get?_eq (hvo t h1 h2)
    have hpre2 : ∀ j : Nat, lg < j → HeapNode a2 n j := by
      intro j hj
      have h0 := hpre j (by omega)
      unfold HeapNode at h0 ⊢
      rw [hvoD j (by omega) (by omega), hvoD (2 * j + 1) (by omega) (by omega),
        hvoD (2 * j + 2) (by omega) (by omega)]
      exact h0
    have ih := heapify_spec a2 n lg (by omega) hpre2
    set r := (heapify a2 n lg).2 with hr
    have hrlen : r.length = a.length := by
      rw [hr, heapify_length, hlen2]
    have hndlgi : ¬ Desc lg i := fun hc => by have := hc.ge; omega
    have hrI : r.getD i 0 = a.getD lg 0 := by
      rw [getD_eq_of_get?_eq (ih.1 i hndlgi), hv1]
    -- values at the children of lg are unchanged from a
    have hchlg : ∀ c : Nat, (c = 2 * lg + 1 ∨ c = 2 * lg + 2) →
        a2.getD c 0 = a.getD c 0 := by
      intro c hc
      exact hvoD c (by omega) (by omega)
    refine ⟨?_, ?_, ?_, ?_⟩
    · intro t ht
      have htne : t ≠ i := fun hc => ht (hc ▸ Desc.refl)
      have htlg : t ≠ lg := fun hc => ht (hc ▸ hdlg)
      have htd : ¬ Desc lg t := fun hc => ht (hdlg.trans hc)
      rw [ih.1 t htd]
      exact hvo t htne htlg
    · intro t ht
      rw [ih.2.1 t ht]
      exact hvo t (by omega) (by omega)
    · intro j hj
      by_cases hjlg : lg ≤ j
      · exact ih.2.2.1 j hjlg
      · by_cases hji : j = i
        · subst hji
          have hchild : ∀ c : Nat, c < n → (c = 2 * j + 1 ∨ c = 2 * j + 2) →
              r.getD c 0 ≤ a.getD lg 0 := by
            intro c hcn hcc
            by_cases hclg : c = lg
            · subst hclg
              rcases ih.2.2.2 with h4 | h4 | h4
              · refine le_trans h4 ?_
                rw [hv2]
                exact hge.1
              · refine le_trans h4.2 ?_
                rw [getD_eq_of_get?_eq (hvo (2 * lg + 1) (by omega) (by omega))]
                exact (hpre lg (by omega)).1 h4.1
              · refine le_trans h4.2 ?_
                rw [getD_eq_of_get?_eq (hvo (2 * lg + 2) (by omega) (by omega))]
                exact (hpre lg (by omega)).2 h4.1
            · have hnd : ¬ Desc lg c := by
                intro hdc
                rcases hdc.lower with h1 | h1
                · exact hclg h1
                · rcases hcc with h2 | h2 <;> rcases hcase with h3 | h3 | h3 <;> omega
              have hcv : r.getD c 0 = a.getD c 0 := by
                rw [getD_eq_of_get?_eq (ih.1 c hnd)]
                exact hvoD c (by omega) hclg
              rw [hcv]
              rcases hcc with h1 | h1
              · rw [h1]
                exact hge.2.1 (h1 ▸ hcn)
              · rw [h1]
                exact hge.2.2 (h1 ▸ hcn)
          refine ⟨?_, ?_⟩
          · intro hc1
            rw [hrI]
            exact hchild (2 * j + 1) hc1 (Or.inl rfl)
          · intro hc2
            rw [hrI]
            exact hchild (2 * j + 2) hc2 (Or.inr rfl)
        · have hjr : i < j ∧ j < lg := by omega
          have hjnd : ¬ Desc lg j := fun hc => by have := hc.ge; omega
          have hcne : ∀ c : Nat, (c = 2 * j + 1 ∨ c = 2 * j + 2) → c ≠ lg := by
            intro c hcc
            rcases hcc with h2 | h2 <;> rcases hcase with h3 | h3 | h3 <;> omega
          have hcnd : ∀ c : Nat, (c = 2 * j + 1 ∨ c = 2 * j + 2) → ¬ Desc lg c := by
            intro c hcc hdc
            rcases hdc.lower with h1 | h1
            · exact hcne c hcc h1
            · rcases hcc with h2 | h2 <;> omega
          have hjv : r.getD j 0 = a.getD j 0 := by
            rw [getD_eq_of_get?_eq (ih.1 j hjnd)]
            exact hvoD j (by omega) (by omega)
          have hcv : ∀ c : Nat, (c = 2 * j + 1 ∨ c = 2 * j + 2) →
              r.getD c 0 = a.getD c 0 := by
            intro c hcc
            rw [getD_eq_of_get?_eq (ih.1 c (hcnd c hcc))]
            refine hvoD c ?_ (hcne c hcc)
            rcases hcc with h2 | h2 <;> omega
          have h0 := hpre j (by omega)
          unfold HeapNode at h0 ⊢
          rw [hjv, hcv (2 * j + 1) (Or.inl rfl), hcv (2 * j + 2) (Or.inr rfl)]
          exact h0
    · rcases hcase with h1 | h1 | h1
      · exact absurd h1 hne
      · exact Or.inr (Or.inl ⟨h1.2, le_of_eq (by rw [hrI, h1.1])⟩)
      · exact Or.inr (Or.inr ⟨h1.2, le_of_eq (by rw [hrI, h1.1])⟩)
  · rename_i heq
    dsimp only
    have hge := heapLargest_ge a n i
    have hi : heapLargest a n i = i := by
      by_contra hc
      exact heq hc
    refine ⟨fun t ht => rfl, fun t ht => rfl, ?_, Or.inl (le_refl _)⟩
    intro j hj
    by_cases hji : j = i
    · subst hji
      rw [hi] at hge
      exact ⟨fun hc => hge.2.1 hc, fun hc => hge.2.2 hc⟩
    · exact hpre j (by omega)
termination_by n - i
decreasing_by
  have := heapLargest_bound a n i
  omega

theorem heapBuild_spec (a : List Int) (k n : Nat) (hn : n ≤ a.length)
    (hpre : ∀ j : Nat, k ≤ j → HeapNode a n j) :
    (∀ j : Nat, HeapNode (heapBuild a k n).2 n j) ∧
      (∀ t : Nat, n ≤ t → (heapBuild a k n).2.get? t = a.get? t) := by
  induction k generalizing a with
  | zero => exact ⟨fun j => hpre j (Nat.zero_le j), fun t ht => rfl⟩
  | succ k ih =>
    simp only [heapBuild]
    have hs := heapify_spec a n k hn (fun j hj => hpre j (by omega))
    have hlen : (heapify a n k).2.length = a.length := heapify_length a n k
    have hrec := ih (heapify a n k).2 (by omega) (fun j hj => hs.2.2.1 j hj)
    refine ⟨hrec.1, ?_⟩
    intro t ht
    rw [hrec.2 t ht, hs.2.1 t ht]

theorem heap_root_max (a : List Int) (n : Nat)
    (hheap : ∀ j : Nat, HeapNode a n j) :
    ∀ t : Nat, t < n → a.getD t 0 ≤ a.getD 0 0 := by
  intro t
  induction t using Nat.strong_induction_on with
  | _ t ihs =>
    intro htn
    match t with
    | 0 => exact le_refl _
    | t + 1 =>
      set par := t / 2 with hpar
      have hchild : t + 1 = 2 * par + 1 ∨ t + 1 = 2 * par + 2 := by omega
      have hple : a.getD (t + 1) 0 ≤ a.getD par 0 := by
        rcases hchild with h1 | h1
        · rw [h1]
          exact (hheap par).1 (by omega)
        · rw [h1]
          exact (hheap par).2 (by omega)
      exact le_trans hple (ihs par (by omega) (by omega))

theorem heapExtract_spec (a : List Int) (i : Nat) (hn : i + 1 ≤ a.length)
    (hheap : ∀ j : Nat, HeapNode a (i + 1) j)
    (hcross : ∀ p q : Nat, p < q → q < a.length → i < q →
      a.getD p 0 ≤ a.getD q 0) :
    ∀ p q : Nat, p < q → q < a.length →
      (heapExtract a i).2.getD p 0 ≤ (heapExtract a i).2.getD q 0 := by
  rw [heapExtract]
  split
  · rename_i h0
    dsimp only
    have hmax := heap_root_max a (i + 1) hheap
    set a2 := swapJS a 0 i with ha2
    have hlen2 : a2.length = a.length := length_swapJS a 0 i
    have hv1 : a2.getD 0 0 = a.getD i 0 :=
      getD_swapJS_left a 0 i (by omega) (by omega)
    have hv2 : a2.getD i 0 = a.getD 0 0 :=
      getD_swapJS_right a 0 i (by omega)
    have hvo : ∀ t : Nat, t ≠ 0 → t ≠ i → a2.getD t 0 = a.getD t 0 :=
      fun t h1 h2 => getD_eq_of_get?_eq (get?_swapJS_other a 0 i t h1 h2)
    have hcross2 : ∀ p q : Nat, p < q → q < a.length → i - 1 < q →
        a2.getD p 0 ≤ a2.getD q 0 := by
      intro p q hpq hq hiq
      by_cases hqi : q = i
      · rw [hqi, hv2]
        by_cases hp0 : p = 0
        · rw [hp0, hv1]
          exact hmax i (by omega)
        · rw [hvo p hp0 (by omega)]
          exact hmax p (by omega)
      · have hqgt : i < q := by omega
        rw [hvo q (by omega) (by omega)]
        by_cases hp0 : p = 0
        · rw [hp0, hv1]
          exact hcross i q hqgt hq hqgt
        · by_cases hpi : p = i
          · rw [hpi, hv2]
            exact hcross 0 q (by omega) hq hqgt
          · rw [hvo p hp0 hpi]
            exact hcross p q hpq hq hqgt
    have hpre2 : ∀ j : Nat, 0 < j → HeapNode a2 i j := by
      intro j hj
      by_cases hji : i ≤ j
      · exact ⟨fun hc => by omega, fun hc => by omega⟩
      · have h0j := hheap j
        unfold HeapNode at h0j ⊢
        rw [hvo j (by omega) (by omega)]
        constructor
        · intro hc
          rw [hvo (2 * j + 1) (by omega) (by omega)]
          exact h0j.1 (by omega)
        · intro hc
          rw [hvo (2 * j + 2) (by omega) (by omega)]
          exact h0j.2 (by omega)
    have hify := heapify_spec a2 i 0 (by omega) hpre2
    have hperm : List.Perm (heapify a2 i 0).2 a2 :=
      (heapify_emits a2 i 0 (by omega)).perm
    set r1 := (heapify a2 i 0).2 with hr1
    have hr1len : r1.length = a.length := by
      rw [hr1, heapify_length, hlen2]
    have hframe : ∀ t : Nat, i ≤ t → r1.getD t 0 = a2.getD t 0 :=
      fun t ht => getD_eq_of_get?_eq (hify.2.1 t ht)
    have hcross3 : ∀ p q : Nat, p < q → q < r1.length → i - 1 < q →
        r1.getD p 0 ≤ r1.getD q 0 := by
      intro p q hpq hq hiq
      have hq2 : i - 1 < q := hiq
      have hqv : r1.getD q 0 = a2.getD q 0 := by
        refine hframe q ?_
        omega
      rw [hqv]
      by_cases hpi : i ≤ p
      · rw [hframe p hpi]
        exact hcross2 p q hpq (by omega) (by omega)
      · -- p is inside the re-heapified zone: bound through the permutation
        have hpseg := perm_seg r1 a2 0 i hperm (by omega)
          (fun t ht => by omega) (fun t ht => hify.2.1 t ht)
        have hx : r1.getD p 0 ∈ seg r1 0 i := by
          refine (mem_seg r1 0 i _ (by omega)).mpr ?_
          exact ⟨p, by omega, by omega, get?_eq_some_getD r1 p (by omega)⟩
        rw [List.Perm.mem_iff hpseg] at hx
        obtain ⟨t, ht1, ht2, ht3⟩ := (mem_seg a2 0 i _ (by omega)).mp hx
        rw [get?_eq_some_getD a2 t (by omega)] at ht3
        rw [← Option.some.inj ht3]
        exact hcross2 t q (by omega) (by omega) (by omega)
    have hheap3 : ∀ j : Nat, HeapNode r1 (i - 1 + 1) j := by
      intro j
      have := hify.2.2.1 j (Nat.zero_le j)
      rw [show i - 1 + 1 = i by omega]
      exact this
    have ih := heapExtract_spec r1 (i - 1) (by omega) hheap3
      (by intro p q hpq hq hiq; exact hcross3 p q hpq hq hiq)
    intro p q hpq hq
    exact ih p q hpq (by omega)
  · rename_i h0
    intro p q hpq hq
    exact hcross p q hpq hq (by omega)
termination_by i

theorem heapGenerateSteps_final (a : List Int) :
    (heapGenerateSteps a).2 = sortA a := by
  have hperm := (heapGenerateSteps_emits a).perm
  have hbl := heapBuild_length a (a.length / 2) a.length
  have hel := heapExtract_length (heapBuild a (a.length / 2) a.length).2 (a.length - 1)
  by_cases ha : a.length = 0
  · have hnil : a = [] := List.eq_nil_of_length_eq_zero ha
    have h0 : (heapGenerateSteps a).2.length = 0 := by
      have hf : (heapGenerateSteps a).2 =
          (heapExtract (heapBuild a (a.length / 2) a.length).2 (a.length - 1)).2 := rfl
      rw [hf, heapExtract_length, heapBuild_length, ha]
    rw [hnil, show (sortA ([] : List Int)) = [] from rfl]
    exact List.eq_nil_of_length_eq_zero (hnil ▸ h0)
  · have hbuild := heapBuild_spec a (a.length / 2) a.length (le_refl _)
      (by
        intro j hj
        exact ⟨fun hc => by omega, fun hc => by omega⟩)
    have hheapB : ∀ j : Nat, HeapNode (heapBuild a (a.length / 2) a.length).2
        (a.length - 1 + 1) j := by
      intro j
      rw [show a.length - 1 + 1 = a.length by omega]
      exact hbuild.1 j
    have hext := heapExtract_spec (heapBuild a (a.length / 2) a.length).2
      (a.length - 1) (by omega) hheapB
      (by
        intro p q hpq hq hiq
        omega)
    refine eq_sortA_of_perm_of_sorted a _ hperm ?_
    rw [sorted_iff_getD]
    intro p q hpq hq
    rw [hperm.length_eq] at hq
    have hfin : (heapGenerateSteps a).2 =
        (heapExtract (heapBuild a (a.length / 2) a.length).2 (a.length - 1)).2 := rfl
    rw [hfin]
    exact hext p q hpq (by omega)

/-! ### Claim support: engine dispatch, last-step snapshots, pair sorting -/

theorem jsSortAsc_pair (p q : Int) :
    jsSortAsc [p, q] = if p ≤ q then [p, q] else [q, p] := by
  simp [jsSortAsc, List.insertionSort, List.orderedInsert]

theorem engineEmits (k : AlgKey) (a : List Int) (hk : k ≠ AlgKey.merge) :
    Emits a (engineGenerate k a).1 (engineGenerate k a).2 := by
  cases k with
  | bubble => exact bubbleGenerateSteps_emits a
  | selection => exact selectionGenerateSteps_emits a
  | insertion => exact insertionGenerateSteps_emits a
  | merge => exact absurd rfl hk
  | quick => exact quickGenerateSteps_emits a
  | heap => exact heapGenerateSteps_emits a

theorem engineFinal (k : AlgKey) (a : List Int) :
    (engineGenerate k a).2 = sortA a := by
  cases k with
  | bubble => exact bubbleGenerateSteps_final a
  | selection => exact selectionGenerateSteps_final a
  | insertion => exact insertionGenerateSteps_final a
  | merge => exact mergeGenerateSteps_final a
  | quick => exact quickGenerateSteps_final a
  | heap => exact heapGenerateSteps_final a

theorem sortedMarks_snap (a : List Int) (i m : Nat) :
    ∀ st ∈ sortedMarks a i m, st.arrayState = a := by
  rw [sortedMarks]
  split
  · intro st hst
    rcases List.mem_cons.mp hst with h | h
    · rw [h]
      rfl
    · exact sortedMarks_snap a (i + 1) m st h
  · intro st hst
    simp at hst
termination_by m - i

theorem sortedMarks_ne_nil (a : List Int) (i m : Nat) (h : i < m) :
    sortedMarks a i m ≠ [] := by
  rw [sortedMarks, dif_pos h]
  simp

/-- The last element of `A ++ x :: B` is either the last of `B` or, when `B`
is empty, `x` itself. -/
theorem lastOf_append_cons {α : Type} (A B : List α) (x y : α)
    (h : (A ++ x :: B).getLast? = some y) :
    B.getLast? = some y ∨ (B = [] ∧ y = x) := by
  by_cases hB : B = []
  · subst hB
    rw [List.getLast?_concat] at h
    exact Or.inr ⟨rfl, (Option.some.inj h).symm⟩
  · rw [show A ++ x :: B = (A ++ [x]) ++ B by simp] at h
    rw [List.getLast?_append_of_ne_nil _ hB] at h
    exact Or.inl h

theorem lastOf_cons_append {α : Type} (x : α) (A B : List α) (y : α)
    (h : (x :: (A ++ B)).getLast? = some y) (hB : B ≠ []) :
    B.getLast? = some y := by
  rw [show x :: (A ++ B) = (x :: A) ++ B from rfl] at h
  rw [List.getLast?_append_of_ne_nil _ hB] at h
  exact h

theorem bubbleOuter_ne_nil (a : List Int) (i n : Nat) (h : i < n - 1) :
    (bubbleOuter a i n).1 ≠ [] := by
  rw [bubbleOuter, dif_pos h]
  dsimp only
  split <;> simp

theorem bubbleOuter_last (a : List Int) (i n : Nat) :
    ∀ st, (bubbleOuter a i n).1.getLast? = some st →
      st.arrayState = (bubbleOuter a i n).2 := by
  intro st hst
  rw [bubbleOuter] at hst ⊢
  by_cases h : i < n - 1
  · rw [dif_pos h] at hst ⊢
    dsimp only at hst ⊢
    by_cases hfl : (bubbleScan a 0 (n - 1 - i) false).2.2 = true
    · rw [if_pos hfl] at hst ⊢
      dsimp only at hst ⊢
      rcases lastOf_append_cons _ _ _ _ hst with hl | ⟨hrest, hps⟩
      · exact bubbleOuter_last _ (i + 1) n st hl
      · have h2 : ¬ i + 1 < n - 1 := fun hc =>
          bubbleOuter_ne_nil _ (i + 1) n hc hrest
        rw [bubbleOuter, dif_neg h2]
        rw [hps]
        rfl
    · rw [if_neg hfl] at hst ⊢
      dsimp only at hst ⊢
      rcases lastOf_append_cons _ _ _ _ hst with hl | ⟨hm, hps⟩
      · exact sortedMarks_snap _ 0 (n - 1 - i) st
          (List.mem_of_mem_getLast? hl)
      · rw [hps]
        rfl
  · rw [dif_neg h] at hst
    simp at hst
termination_by n - 1 - i

theorem bubbleGenerateSteps_last (a : List Int) :
    ∀ st, (bubbleGenerateSteps a).1.getLast? = some st →
      st.arrayState = (bubbleGenerateSteps a).2 := by
  intro st hst
  unfold bubbleGenerateSteps at hst ⊢
  dsimp only at hst ⊢
  rcases hlast : (bubbleOuter a 0 a.length).1.getLast? with _ | last
  · simp only [hlast] at hst
    cases hst
  · simp only [hlast, ne_eq] at hst ⊢
    by_cases hg : last.indices.getD 0 0 = 0
    · rw [if_neg (by simpa using hg)] at hst ⊢
      exact bubbleOuter_last a 0 a.length st hst
    · rw [if_pos hg] at hst ⊢
      rw [List.getLast?_concat] at hst
      rw [← Option.some.inj hst]
      rfl

theorem selectionGenerateSteps_last (a : List Int) :
    ∀ st, (selectionGenerateSteps a).1.getLast? = some st →
      st.arrayState = (selectionGenerateSteps a).2 := by
  intro st hst
  unfold selectionGenerateSteps at hst ⊢
  dsimp only at hst ⊢
  rw [List.getLast?_concat] at hst
  rw [← Option.some.inj hst]
  rfl

theorem insertionGenerateSteps_last (a : List Int) :
    ∀ st, (insertionGenerateSteps a).1.getLast? = some st →
      st.arrayState = (insertionGenerateSteps a).2 := by
  intro st hst
  by_cases hn : a.length = 0
  · have ha : a = [] := List.length_eq_zero.mp hn
    subst ha
    have htr : (insertionGenerateSteps ([] : List Int)).1 =
        [createStep StepType.sorted [0] [] false] := by
      simp [insertionGenerateSteps, insOuter, sortedMarks]
    have hfin : (insertionGenerateSteps ([] : List Int)).2 = [] := by
      simp [insertionGenerateSteps, insOuter, sortedMarks]
    rw [htr] at hst
    simp only [List.getLast?_singleton] at hst
    rw [← Option.some.inj hst, hfin]
    rfl
  · unfold insertionGenerateSteps at hst ⊢
    dsimp only at hst ⊢
    have hm := sortedMarks_ne_nil (insOuter a 1 a.length).2 0 a.length (by omega)
    have hl := lastOf_cons_append _ _ _ _ hst hm
    exact sortedMarks_snap _ 0 a.length st (List.mem_of_mem_getLast? hl)

theorem quickGenerateSteps_last (a : List Int) :
    ∀ st, (quickGenerateSteps a).1.getLast? = some st →
      st.arrayState = (quickGenerateSteps a).2 := by
  intro st hst
  by_cases hn : a.length = 0
  · have ha : a = [] := List.length_eq_zero.mp hn
    subst ha
    rw [quickGenerateSteps] at hst
    rw [quickSortRec] at hst
    simp [sortedMarks] at hst
  · unfold quickGenerateSteps at hst ⊢
    dsimp only at hst ⊢
    have hm := sortedMarks_ne_nil (quickSortRec a 0 ((a.length : Int) - 1)).2
      0 a.length (by omega)
    rw [List.getLast?_append_of_ne_nil _ hm] at hst
    exact sortedMarks_snap _ 0 a.length st (List.mem_of_mem_getLast? hst)

theorem mergeGenerateSteps_last (a : List Int) :
    ∀ st, (mergeGenerateSteps a).1.getLast? = some st →
      st.arrayState = (mergeGenerateSteps a).2 := by
  intro st hst
  by_cases hn : a.length = 0
  · have ha : a = [] := List.length_eq_zero.mp hn
    subst ha
    rw [mergeGenerateSteps] at hst
    rw [mergeSortRec] at hst
    simp [sortedMarks] at hst
  · unfold mergeGenerateSteps at hst ⊢
    dsimp only at hst ⊢
    have hm := sortedMarks_ne_nil (mergeSortRec a 0 ((a.length : Int) - 1)).2
      0 a.length (by omega)
    rw [List.getLast?_append_of_ne_nil _ hm] at hst
    exact sortedMarks_snap _ 0 a.length st (List.mem_of_mem_getLast? hst)

theorem heapGenerateSteps_last (a : List Int) :
    ∀ st, (heapGenerateSteps a).1.getLast? = some st →
      st.arrayState = (heapGenerateSteps a).2 := by
  intro st hst
  unfold heapGenerateSteps at hst ⊢
  dsimp only at hst ⊢
  have hl := lastOf_cons_append _ _ _ _ hst (by simp)
  simp only [List.getLast?_singleton] at hl
  rw [← Option.some.inj hl]
  rfl

theorem engineLast (k : AlgKey) (a : List Int) :
    ∀ st, (engineGenerate k a).1.getLast? = some st →
      st.arrayState = (engineGenerate k a).2 := by
  cases k with
  | bubble => exact bubbleGenerateSteps_last a
  | selection => exact selectionGenerateSteps_last a
  | insertion => exact insertionGenerateSteps_last a
  | merge => exact mergeGenerateSteps_last a
  | quick => exact quickGenerateSteps_last a
  | heap => exact heapGenerateSteps_last a

/-- In a swap-engine trace over an array of length at most 1 no step can be a
user action: a user action carries an in-bounds index pair `i < j`. -/
theorem trace_no_user_of_short (k : AlgKey) (a : List Int)
    (hk : k ≠ AlgKey.merge) (hlen : a.length ≤ 1) :
    ∀ st ∈ (engineGenerate k a).1, st.isUserAction = false := by
  intro st hst
  by_contra hc
  rw [Bool.not_eq_false] at hc
  obtain ⟨_, i, j, hidx, hij, hjlen⟩ := (engineEmits k a hk).user_pair st hst hc
  have hsl := (engineEmits k a hk).snap_len st hst
  omega

theorem merge_no_user_of_short (a : List Int) (hlen : a.length ≤ 1) :
    ∀ st ∈ (mergeGenerateSteps a).1, st.isUserAction = false := by
  rcases a with _ | ⟨x, _ | ⟨y, t⟩⟩
  · intro st hst
    have htr : (mergeGenerateSteps ([] : List Int)).1 = [] := by
      simp [mergeGenerateSteps, mergeSortRec, sortedMarks]
    rw [htr] at hst
    simp at hst
  · intro st hst
    have htr : (mergeGenerateSteps [x]).1 =
        [createStep StepType.sorted [0] [x] false] := by
      simp [mergeGenerateSteps, mergeSortRec, sortedMarks]
    rw [htr] at hst
    simp at hst
    rw [hst]
    rfl
  · simp at hlen

theorem bubbleSteps21 :
    (bubbleGenerateSteps [2, 1]).1 =
      [createStep StepType.compare [0, 1] [2, 1] false,
       createStep StepType.swap [0, 1] [2, 1] true,
       createStep StepType.sorted [1] [1, 2] false,
       createStep StepType.sorted [0] [1, 2] false] := by
  simp [bubbleGenerateSteps, bubbleOuter, bubbleScan, sortedMarks, swapJS,
    createStep, jsGet]

theorem mergeSteps21 :
    (mergeGenerateSteps [2, 1]).1 =
      [createStep StepType.divide [0, 1] [2, 1] false,
       createStep StepType.merge [0, 1] [2, 1] false,
       createStep StepType.compare [0, 1] [2, 1] false,
       createStep StepType.select [0] [2, 1] true,
       createStep StepType.select [1] [1, 1] true,
       createStep StepType.sorted [0] [1, 2] false,
       createStep StepType.sorted [1] [1, 2] false] := by
  simp [mergeGenerateSteps, mergeSortRec, mergeJS, mergeLoop, mergeDrain,
    sortedMarks, createStep, jsGet, List.set]

theorem mergeFinal21 : (mergeGenerateSteps [2, 1]).2 = [1, 2] := by
  simp [mergeGenerateSteps, mergeSortRec, mergeJS, mergeLoop, mergeDrain,
    sortedMarks, createStep, jsGet, List.set]

theorem bubbleSteps312 :
    (bubbleGenerateSteps [3, 1, 2]).1 =
      [createStep StepType.compare [0, 1] [3, 1, 2] false,
       createStep StepType.swap [0, 1] [3, 1, 2] true,
       createStep StepType.compare [1, 2] [1, 3, 2] false,
       createStep StepType.swap [1, 2] [1, 3, 2] true,
       createStep StepType.sorted [2] [1, 2, 3] false,
       createStep StepType.compare [0, 1] [1, 2, 3] false,
       createStep StepType.sorted [1] [1, 2, 3] false,
       createStep StepType.sorted [0] [1, 2, 3] false] := by
  simp [bubbleGenerateSteps, bubbleOuter, bubbleScan, sortedMarks, swapJS,
    createStep, jsGet]

theorem gameBubble_steps :
    (startGameWith AlgKey.bubble Difficulty.easy [3, 1, 2]).steps =
      (bubbleGenerateSteps [3, 1, 2]).1 := rfl

theorem gameBubble_cursor :
    (startGameWith AlgKey.bubble Difficulty.easy [3, 1, 2]).currentStepIndex
      = 1 := by
  simp [startGameWith, advanceLoop, engineGenerate, bubbleGenerateSteps,
    bubbleOuter, bubbleScan, sortedMarks, swapJS, createStep, jsGet]

theorem gameBubble_array :
    (startGameWith AlgKey.bubble Difficulty.easy [3, 1, 2]).currentArray
      = [3, 1, 2] := by
  simp [startGameWith, advanceLoop, engineGenerate, bubbleGenerateSteps,
    bubbleOuter, bubbleScan, sortedMarks, swapJS, createStep, jsGet]

/-! ### The claims -/

/-- **C1**: for every engine and every input array the generated trace sorts
the input: the engine's final working array is the ascending sort `sortA a`;
the snapshot of the trace's last step (when one exists) is `sortA a`; for
the five swap-based engines replaying the trace's swap steps in order
against a copy of the input yields `sortA a` (witnessed structurally by the
trace relation `Emits`), and for merge sort the trace relation `EmitsM`
drives the input to `sortA a` through exactly the recorded select
placements. -/
theorem claim_C1 (k : AlgKey) (a : List Int) :
    (engineGenerate k a).2 = sortA a ∧
    (∀ st, (engineGenerate k a).1.getLast? = some st →
      st.arrayState = sortA a) ∧
    (k = AlgKey.merge → EmitsM a (engineGenerate k a).1 (sortA a)) ∧
    (k ≠ AlgKey.merge → Emits a (engineGenerate k a).1 (sortA a) ∧
      replaySwaps (engineGenerate k a).1 a = sortA a) := by
  refine ⟨engineFinal k a, ?_, ?_, ?_⟩
  · intro st hst
    rw [engineLast k a st hst, engineFinal]
  · intro hk
    subst hk
    have h := mergeGenerateSteps_emitsM a
    rw [mergeGenerateSteps_final] at h
    exact h
  · intro hk
    have h := engineEmits k a hk
    rw [engineFinal] at h
    exact ⟨h, h.replay⟩

/-- Witness for C1: the bubble-sort trace of `[2, 1]`, replayed, gives the
sorted array. -/
theorem claim_C1_witness :
    Emits [2, 1] (engineGenerate AlgKey.bubble [2, 1]).1 (sortA [2, 1]) ∧
      replaySwaps (engineGenerate AlgKey.bubble [2, 1]).1 [2, 1] =
        sortA [2, 1] :=
  (claim_C1 AlgKey.bubble [2, 1]).2.2.2 (by decide)

/-- **C2** fails in the code: in the merge trace of `[2, 1]` the user-action
select step at index 3 places the value `1` at output position `0` (the next
step's snapshot and the final array both hold `1` there), yet `validateMove`
rejects a select of value `1` and instead accepts value `2` — the occupant
recorded in `values[0]` is the element standing at the position *before* the
placement, not the value being placed. -/
theorem claim_C2 :
    ∃ st st', (mergeGenerateSteps [2, 1]).1.get? 3 = some st ∧
      (mergeGenerateSteps [2, 1]).1.get? 4 = some st' ∧
      st.isUserAction = true ∧ st.type = StepType.select ∧
      st.indices = [(0 : Int)] ∧
      st'.arrayState.getD 0 0 = 1 ∧
      (mergeGenerateSteps [2, 1]).2.getD 0 0 = 1 ∧
      mergeValidateMove (mergeGenerateSteps [2, 1]).1 3
        ⟨StepType.select, [], some 1⟩ = false ∧
      mergeValidateMove (mergeGenerateSteps [2, 1]).1 3
        ⟨StepType.select, [], some 2⟩ = true := by
  refine ⟨createStep StepType.select [0] [2, 1] true,
    createStep StepType.select [1] [1, 1] true,
    by rw [mergeSteps21]; rfl, by rw [mergeSteps21]; rfl, rfl, rfl, rfl, rfl,
    by rw [mergeFinal21]; rfl, ?_, ?_⟩
  · rw [mergeValidateMove, mergeSteps21]
    decide
  · rw [mergeValidateMove, mergeSteps21]
    decide

/-- **C3** (amended): every step's snapshot is a full copy of the array as it
stands *before* the step's semantic event: in every engine's trace each
step's recorded values read out of its own snapshot; for the five
swap-based engines a step's snapshot equals the replay of the swap steps
strictly preceding it — so a swap step's snapshot does not yet show its own
exchange; and in the merge trace a step's snapshot is the state the strictly
preceding steps alone drive the input to, a user-action select step's
placement landing only after its snapshot (the prefix including the step
ends at `st.arrayState.set p v`) — so a placement step's snapshot does not
yet show the placed value. -/
theorem claim_C3 (k : AlgKey) (a : List Int) :
    (∀ st ∈ (engineGenerate k a).1,
      st.values = st.indices.map (jsGet st.arrayState)) ∧
    (k ≠ AlgKey.merge → ∀ n st, (engineGenerate k a).1.get? n = some st →
      st.arrayState = replaySwaps ((engineGenerate k a).1.take n) a) ∧
    (k = AlgKey.merge → ∀ n st, (engineGenerate k a).1.get? n = some st →
      EmitsM a ((engineGenerate k a).1.take n) st.arrayState ∧
      (st.isUserAction = true → ∃ p : Nat, ∃ v : Int,
        st.indices = [(p : Int)] ∧ p < st.arrayState.length ∧
        EmitsM a ((engineGenerate k a).1.take (n + 1))
          (st.arrayState.set p v))) := by
  refine ⟨?_, ?_, ?_⟩
  · intro st hst
    by_cases hk : k = AlgKey.merge
    · subst hk
      exact (mergeGenerateSteps_emitsM a).valsM_read st hst
    · exact (engineEmits k a hk).vals_read st hst
  · intro hk n st hst
    exact (engineEmits k a hk).snapshot_replay n st hst
  · intro hk n st hst
    subst hk
    exact (mergeGenerateSteps_emitsM a).snapM_take n st hst

/-- Witness for C3: the swap step of the bubble trace of `[2, 1]` snapshots
the state reached by replaying the steps before it, and the first select
step of the merge trace of `[2, 1]` snapshots the state reached by the three
steps before it. -/
theorem claim_C3_witness :
    ((createStep StepType.swap [0, 1] [2, 1] true).arrayState =
      replaySwaps ((engineGenerate AlgKey.bubble [2, 1]).1.take 1) [2, 1]) ∧
    EmitsM [2, 1] ((engineGenerate AlgKey.merge [2, 1]).1.take 3)
      (createStep StepType.select [0] [2, 1] true).arrayState :=
  ⟨(claim_C3 AlgKey.bubble [2, 1]).2.1 (by decide) 1 _
    (by rw [show (engineGenerate AlgKey.bubble [2, 1]).1 =
        (bubbleGenerateSteps [2, 1]).1 from rfl, bubbleSteps21]
        rfl),
   ((claim_C3 AlgKey.merge [2, 1]).2.2 rfl 3 _
    (by rw [show (engineGenerate AlgKey.merge [2, 1]).1 =
        (mergeGenerateSteps [2, 1]).1 from rfl, mergeSteps21]
        rfl)).1⟩

/-- **C3** as stated fails: the swap step of the bubble trace of `[2, 1]`
snapshots `[2, 1]`, the array *before* its own exchange — exchanging its two
indices in the snapshot changes the snapshot, so the snapshot does not
already show the exchange. -/
theorem claim_C3_counterexample :
    ∃ st, (bubbleGenerateSteps [2, 1]).1.get? 1 = some st ∧
      st.type = StepType.swap ∧ st.isUserAction = true ∧
      st.indices = [0, 1] ∧ st.arrayState = [2, 1] ∧
      swapJS st.arrayState 0 1 ≠ st.arrayState := by
  refine ⟨createStep StepType.swap [0, 1] [2, 1] true,
    by rw [bubbleSteps21]; rfl, rfl, rfl, rfl, rfl, by decide⟩

/-- **C9**: every step of every engine's trace has as many recorded values
as indices, and a snapshot of the input array's length. -/
theorem claim_C9 (k : AlgKey) (a : List Int) :
    ∀ st ∈ (engineGenerate k a).1,
      st.values.length = st.indices.length ∧
        st.arrayState.length = a.length := by
  intro st hst
  by_cases hk : k = AlgKey.merge
  · subst hk
    refine ⟨?_, (mergeGenerateSteps_emitsM a).snapM_len st hst⟩
    rw [(mergeGenerateSteps_emitsM a).valsM_read st hst, List.length_map]
  · refine ⟨?_, (engineEmits k a hk).snap_len st hst⟩
    rw [(engineEmits k a hk).vals_read st hst, List.length_map]

/-- Witness for C9 at the first step of the bubble trace of `[2, 1]`. -/
theorem claim_C9_witness :
    (createStep StepType.compare [0, 1] [2, 1] false).values.length =
      (createStep StepType.compare [0, 1] [2, 1] false).indices.length ∧
    (createStep StepType.compare [0, 1] [2, 1] false).arrayState.length =
      ([2, 1] : List Int).length :=
  claim_C9 AlgKey.bubble [2, 1] _
    (by rw [show (engineGenerate AlgKey.bubble [2, 1]).1 =
        (bubbleGenerateSteps [2, 1]).1 from rfl, bubbleSteps21]
        exact List.mem_cons_self _ _)

/-- **C10**: every swap-kind step of every engine's trace carries exactly two
indices forming a strictly increasing natural pair, so the ascending
in-place sort that `validateMove` performs on the stored indices never
changes them. -/
theorem claim_C10 (k : AlgKey) (a : List Int) :
    ∀ st ∈ (engineGenerate k a).1, st.type = StepType.swap →
      (∃ i j : Nat, st.indices = [(i : Int), (j : Int)] ∧ i < j) ∧
      jsSortAsc st.indices = st.indices := by
  intro st hst htype
  by_cases hk : k = AlgKey.merge
  · subst hk
    exact absurd htype ((mergeGenerateSteps_emitsM a).no_swap st hst)
  · obtain ⟨_, i, j, hidx, hij, _⟩ :=
      (engineEmits k a hk).swap_shape st hst htype
    refine ⟨⟨i, j, hidx, hij⟩, ?_⟩
    rw [hidx, jsSortAsc_pair, if_pos (by exact_mod_cast Nat.le_of_lt hij)]

/-- Witness for C10 at the swap step of the bubble trace of `[2, 1]`. -/
theorem claim_C10_witness :
    (∃ i j : Nat,
      (createStep StepType.swap [0, 1] [2, 1] true).indices =
        [(i : Int), (j : Int)] ∧ i < j) ∧
    jsSortAsc (createStep StepType.swap [0, 1] [2, 1] true).indices =
      (createStep StepType.swap [0, 1] [2, 1] true).indices :=
  claim_C10 AlgKey.bubble [2, 1] _
    (by rw [show (engineGenerate AlgKey.bubble [2, 1]).1 =
        (bubbleGenerateSteps [2, 1]).1 from rfl, bubbleSteps21]
        simp)
    rfl

/-- **C7** (amended): on an empty or singleton input every engine's trace
contains no user-action step and no swap-kind step, so
`getUserActionCount` and `getOptimalSwapCount` are both `0`; the trace is
not always made of in-bounds sorted marks only, see the counterexample. -/
theorem claim_C7 (k : AlgKey) (a : List Int) (hlen : a.length ≤ 1) :
    getUserActionCount (engineGenerate k a).1 = 0 ∧
    getOptimalSwapCount (engineGenerate k a).1 = 0 ∧
    ∀ st ∈ (engineGenerate k a).1, st.isUserAction = false := by
  have hpass : ∀ st ∈ (engineGenerate k a).1, st.isUserAction = false := by
    by_cases hk : k = AlgKey.merge
    · subst hk
      exact merge_no_user_of_short a hlen
    · exact trace_no_user_of_short k a hk hlen
  have hnoswap : ∀ st ∈ (engineGenerate k a).1,
      st.type ≠ StepType.swap := by
    intro st hst
    by_cases hk : k = AlgKey.merge
    · subst hk
      exact (mergeGenerateSteps_emitsM a).no_swap st hst
    · intro hc
      obtain ⟨hu, -⟩ := (engineEmits k a hk).swap_shape st hst hc
      rw [hpass st hst] at hu
      cases hu
  refine ⟨?_, ?_, hpass⟩
  · rw [getUserActionCount, List.length_eq_zero, List.filter_eq_nil_iff]
    intro st hst
    simp [hpass st hst]
  · rw [getOptimalSwapCount, List.length_eq_zero, List.filter_eq_nil_iff]
    intro st hst
    simp [hnoswap st hst]

/-- Witness for C7: the heap trace of the singleton `[7]`. -/
theorem claim_C7_witness :
    getUserActionCount (engineGenerate AlgKey.heap [7]).1 = 0 ∧
    getOptimalSwapCount (engineGenerate AlgKey.heap [7]).1 = 0 ∧
    ∀ st ∈ (engineGenerate AlgKey.heap [7]).1, st.isUserAction = false :=
  claim_C7 AlgKey.heap [7] (by decide)

/-- **C7** as stated fails: the insertion trace of the empty array is one
sorted mark at index `0`, an index the empty input does not have (reading it
gives `undefined`), and the heap trace of the singleton `[7]` opens with a
`divide` step, which is not a sorted mark. -/
theorem claim_C7_counterexample :
    (insertionGenerateSteps ([] : List Int)).1 =
      [createStep StepType.sorted [0] [] false] ∧
    jsGet ([] : List Int) 0 = none ∧
    (∃ st, (heapGenerateSteps [7]).1.get? 0 = some st ∧
      st.type = StepType.divide) := by
  refine ⟨by simp [insertionGenerateSteps, insOuter, sortedMarks], rfl,
    createStep StepType.divide [] [7] false, rfl, rfl⟩

/-- **C4**: in an active session, a correct move at a user-action step is
awarded `round ((100 + streakBonus) * multiplier)` points, where the streak
counting this move is `streak + 1`, the bonus is `50` exactly when that
streak has reached `5` (so the 5th consecutive correct move already gets it
and no earlier one does), and the multiplier is `1`, `3/2`, `2`, `3` for
easy, medium, hard, expert. -/
theorem claim_C4 (g : GameState) (ua : UserAction) (t : ℚ) (step : Step)
    (h1 : g.isGameActive = true) (h2 : g.isGameComplete = false)
    (h3 : g.steps.get? g.currentStepIndex = some step)
    (h4 : step.isUserAction = true)
    (h5 : engineValidate g.alg g.steps g.currentStepIndex ua = true)
    (h6 : (advanceLoop g.steps (g.currentStepIndex + 1)
        (if ua.type = StepType.swap then
          applySwapAction g.currentArray ua.indices
         else g.currentArray)).1 < g.steps.length) :
    (processMove g ua t).score =
      g.score + round ((100 + (if g.streak + 1 ≥ 5 then (50 : ℚ) else 0)) *
        diffBonus g.difficulty) ∧
    (processMove g ua t).streak = g.streak + 1 ∧
    (processMove g ua t).correctMoves = g.correctMoves + 1 ∧
    diffBonus Difficulty.easy = 1 ∧ diffBonus Difficulty.medium = 3 / 2 ∧
    diffBonus Difficulty.hard = 2 ∧ diffBonus Difficulty.expert = 3 := by
  have hp : processMove g ua t =
      { g with
        correctMoves := g.correctMoves + 1
        streak := g.streak + 1
        maxStreak := max g.maxStreak (g.streak + 1)
        score := g.score +
          round ((100 + (if g.streak + 1 ≥ 5 then (50 : ℚ) else 0)) *
            diffBonus g.difficulty)
        currentStepIndex := (advanceLoop g.steps (g.currentStepIndex + 1)
          (if ua.type = StepType.swap then
            applySwapAction g.currentArray ua.indices
           else g.currentArray)).1
        currentArray := (advanceLoop g.steps (g.currentStepIndex + 1)
          (if ua.type = StepType.swap then
            applySwapAction g.currentArray ua.indices
           else g.currentArray)).2 } := by
    unfold processMove
    rw [if_neg (by simp [h1, h2])]
    simp only [h3]
    rw [if_neg (by simp [h4]), if_pos h5]
    rw [if_neg (not_le.mpr h6)]
  exact ⟨by rw [hp], by rw [hp], by rw [hp], rfl, rfl, rfl, rfl⟩

/-- Witness for C4: the first correct move of a bubble-sort game on
`[3, 1, 2]` at easy difficulty. -/
theorem claim_C4_witness :
    (processMove (startGameWith AlgKey.bubble Difficulty.easy [3, 1, 2])
        ⟨StepType.swap, [0, 1], none⟩ 0).score =
      (startGameWith AlgKey.bubble Difficulty.easy [3, 1, 2]).score +
        round ((100 +
          (if (startGameWith AlgKey.bubble Difficulty.easy
                [3, 1, 2]).streak + 1 ≥ 5 then (50 : ℚ) else 0)) *
          diffBonus (startGameWith AlgKey.bubble Difficulty.easy
            [3, 1, 2]).difficulty) :=
  (claim_C4 (startGameWith AlgKey.bubble Difficulty.easy [3, 1, 2])
    ⟨StepType.swap, [0, 1], none⟩ 0
    (createStep StepType.swap [0, 1] [3, 1, 2] true)
    rfl rfl
    (by rw [gameBubble_steps, gameBubble_cursor, bubbleSteps312]; rfl)
    rfl
    (by rw [gameBubble_steps, gameBubble_cursor, bubbleSteps312]
        decide)
    (by rw [gameBubble_steps, gameBubble_cursor, gameBubble_array,
          bubbleSteps312]
        simp [advanceLoop, applySwapAction, swapJS, createStep, jsGet,
          List.get])).1

/-- **C5**: in an active session, an invalid move at a user-action step
increments `incorrectMoves`, resets the streak, deducts exactly 50 points
floored at 0, leaves the cursor and the working array unchanged, and keeps
the game active. -/
theorem claim_C5 (g : GameState) (ua : UserAction) (t : ℚ) (step : Step)
    (h1 : g.isGameActive = true) (h2 : g.isGameComplete = false)
    (h3 : g.steps.get? g.currentStepIndex = some step)
    (h4 : step.isUserAction = true)
    (h5 : engineValidate g.alg g.steps g.currentStepIndex ua = false) :
    processMove g ua t =
      { g with
        incorrectMoves := g.incorrectMoves + 1
        streak := 0
        score := max 0 (g.score - 50) } ∧
    (processMove g ua t).currentStepIndex = g.currentStepIndex ∧
    (processMove g ua t).currentArray = g.currentArray ∧
    (processMove g ua t).isGameActive = true ∧
    (processMove g ua t).score = max 0 (g.score - 50) ∧
    (0 : Int) ≤ (processMove g ua t).score := by
  have hp : processMove g ua t =
      { g with
        incorrectMoves := g.incorrectMoves + 1
        streak := 0
        score := max 0 (g.score - 50) } := by
    unfold processMove
    rw [if_neg (by simp [h1, h2])]
    simp only [h3]
    rw [if_neg (by simp [h4]), if_neg (by simp [h5])]
  exact ⟨hp, by rw [hp], by rw [hp], by rw [hp]; exact h1, by rw [hp],
    by rw [hp]; exact le_max_left 0 _⟩

/-- Witness for C5: an incorrect move (swapping `0` and `2`) in the
bubble-sort game on `[3, 1, 2]`. -/
theorem claim_C5_witness :
    processMove (startGameWith AlgKey.bubble Difficulty.easy [3, 1, 2])
        ⟨StepType.swap, [0, 2], none⟩ 0 =
      { startGameWith AlgKey.bubble Difficulty.easy [3, 1, 2] with
        incorrectMoves := (startGameWith AlgKey.bubble Difficulty.easy
          [3, 1, 2]).incorrectMoves + 1
        streak := 0
        score := max 0 ((startGameWith AlgKey.bubble Difficulty.easy
          [3, 1, 2]).score - 50) } :=
  (claim_C5 (startGameWith AlgKey.bubble Difficulty.easy [3, 1, 2])
    ⟨StepType.swap, [0, 2], none⟩ 0
    (createStep StepType.swap [0, 1] [3, 1, 2] true)
    rfl rfl
    (by rw [gameBubble_steps, gameBubble_cursor, bubbleSteps312]; rfl)
    rfl
    (by rw [gameBubble_steps, gameBubble_cursor, bubbleSteps312]
        decide)).1

theorem quickSteps312 :
    (quickGenerateSteps [3, 1, 2]).1 =
      [createStep StepType.divide [0, 2] [3, 1, 2] false,
       createStep StepType.pivot [2] [3, 1, 2] false,
       createStep StepType.compare [0, 2] [3, 1, 2] false,
       createStep StepType.compare [1, 2] [3, 1, 2] false,
       createStep StepType.swap [0, 1] [3, 1, 2] true,
       createStep StepType.swap [1, 2] [1, 3, 2] true,
       createStep StepType.sorted [1] [1, 2, 3] false,
       createStep StepType.sorted [0] [1, 2, 3] false,
       createStep StepType.sorted [2] [1, 2, 3] false,
       createStep StepType.sorted [0] [1, 2, 3] false,
       createStep StepType.sorted [1] [1, 2, 3] false,
       createStep StepType.sorted [2] [1, 2, 3] false] := by
  simp [quickGenerateSteps, quickSortRec, qsPartition, qsPartLoop,
    sortedMarks, createStep, jsGet, swapJS]

theorem gameQuick_cursor :
    (startGameWith AlgKey.quick Difficulty.easy [3, 1, 2]).currentStepIndex
      = 4 := by
  simp [startGameWith, advanceLoop, engineGenerate, quickGenerateSteps,
    quickSortRec, qsPartition, qsPartLoop, sortedMarks, createStep, jsGet,
    swapJS, List.get]

theorem gameQuick_array :
    (startGameWith AlgKey.quick Difficulty.easy [3, 1, 2]).currentArray
      = [3, 1, 2] := by
  simp [startGameWith, advanceLoop, engineGenerate, quickGenerateSteps,
    quickSortRec, qsPartition, qsPartLoop, sortedMarks, createStep, jsGet,
    swapJS, List.get]

/-- **C6** fails in the code: in the quick-sort game on `[3, 1, 2]` the
cursor starts at the user-action swap step with indices `[0, 1]`, and
force-applying that swap to the current array `[3, 1, 2]` would give
`[1, 3, 2]`; but `skipStep` overwrites the current array with the step's
own snapshot — the array *before* the exchange — so the array stays
`[3, 1, 2]` (the counts, which `skipStep` indeed leaves untouched, are the
part of the claim that holds). -/
theorem claim_C6 :
    ∃ st, (startGameWith AlgKey.quick Difficulty.easy [3, 1, 2]).steps.get?
        (startGameWith AlgKey.quick Difficulty.easy
          [3, 1, 2]).currentStepIndex = some st ∧
      st.isUserAction = true ∧ st.type = StepType.swap ∧
      st.indices = [0, 1] ∧
      (startGameWith AlgKey.quick Difficulty.easy [3, 1, 2]).currentArray
        = [3, 1, 2] ∧
      applySwapAction [3, 1, 2] st.indices = [1, 3, 2] ∧
      (skipStep (startGameWith AlgKey.quick Difficulty.easy [3, 1, 2])
        0).currentArray = [3, 1, 2] ∧
      (skipStep (startGameWith AlgKey.quick Difficulty.easy [3, 1, 2])
        0).currentArray ≠ [1, 3, 2] ∧
      (skipStep (startGameWith AlgKey.quick Difficulty.easy [3, 1, 2])
        0).correctMoves =
        (startGameWith AlgKey.quick Difficulty.easy [3, 1, 2]).correctMoves ∧
      (skipStep (startGameWith AlgKey.quick Difficulty.easy [3, 1, 2])
        0).incorrectMoves =
        (startGameWith AlgKey.quick Difficulty.easy
          [3, 1, 2]).incorrectMoves := by
  have harr : (skipStep (startGameWith AlgKey.quick Difficulty.easy
      [3, 1, 2]) 0).currentArray = [3, 1, 2] := by
    simp [skipStep, startGameWith, advanceLoop, engineGenerate,
      quickGenerateSteps, quickSortRec, qsPartition, qsPartLoop, sortedMarks,
      createStep, jsGet, swapJS, applySwapAction, completeGame, List.get]
  refine ⟨createStep StepType.swap [0, 1] [3, 1, 2] true, ?_, rfl, rfl, rfl,
    gameQuick_array, by decide, harr, by rw [harr]; decide, ?_, ?_⟩
  · rw [show (startGameWith AlgKey.quick Difficulty.easy [3, 1, 2]).steps =
      (quickGenerateSteps [3, 1, 2]).1 from rfl, gameQuick_cursor,
      quickSteps312]
    rfl
  · simp [skipStep, startGameWith, advanceLoop, engineGenerate,
      quickGenerateSteps, quickSortRec, qsPartition, qsPartLoop, sortedMarks,
      createStep, jsGet, swapJS, applySwapAction, completeGame, List.get]
  · simp [skipStep, startGameWith, advanceLoop, engineGenerate,
      quickGenerateSteps, quickSortRec, qsPartition, qsPartLoop, sortedMarks,
      createStep, jsGet, swapJS, applySwapAction, completeGame, List.get]

/-- **C8**: at every user-action step of a swap-based engine's trace,
`validateMove` accepts an action with two indices exactly when the action is
a swap whose index pair equals the step's index pair as an unordered pair;
any other two-index swap submission at that step is rejected. -/
theorem claim_C8 (k : AlgKey) (a : List Int) (n : Nat) (st : Step)
    (ua : UserAction) (x y : Int) (hk : k ≠ AlgKey.merge)
    (hst : (engineGenerate k a).1.get? n = some st)
    (hua : st.isUserAction = true) (hxy : ua.indices = [x, y]) :
    engineValidate k (engineGenerate k a).1 n ua = true ↔
      ua.type = StepType.swap ∧
        (st.indices = [x, y] ∨ st.indices = [y, x]) := by
  obtain ⟨htype, i, j, hidx, hij, hjlen⟩ :=
    (engineEmits k a hk).user_pair st (List.get?_mem hst) hua
  have hij' : (i : Int) < (j : Int) := by exact_mod_cast hij
  have hval : engineValidate k (engineGenerate k a).1 n ua =
      swapEngineValidateMove (engineGenerate k a).1 n ua := by
    cases k <;> first | rfl | exact absurd rfl hk
  rw [hval]
  simp only [swapEngineValidateMove, hst, hua, Bool.not_true,
    Bool.false_eq_true, if_false]
  by_cases hat : ua.type = StepType.swap
  · rw [if_neg (by simp [hat])]
    rw [hidx, hxy, jsSortAsc_pair, jsSortAsc_pair,
      if_pos (le_of_lt hij')]
    simp only [decide_eq_true_eq]
    by_cases hxyle : x ≤ y
    · rw [if_pos hxyle]
      simp only [List.get?_cons_zero, List.get?_cons_succ,
        Option.some.injEq, List.cons.injEq, and_true]
      constructor
      · rintro ⟨h0, h1⟩
        exact ⟨hat, Or.inl ⟨h0, h1⟩⟩
      · rintro ⟨-, ⟨h0, h1⟩ | ⟨h0, h1⟩⟩
        · exact ⟨h0, h1⟩
        · omega
    · rw [if_neg hxyle]
      simp only [List.get?_cons_zero, List.get?_cons_succ,
        Option.some.injEq, List.cons.injEq, and_true]
      constructor
      · rintro ⟨h0, h1⟩
        exact ⟨hat, Or.inr ⟨h0, h1⟩⟩
      · rintro ⟨-, ⟨h0, h1⟩ | ⟨h0, h1⟩⟩
        · omega
        · exact ⟨h0, h1⟩
  · rw [if_pos hat]
    simp [hat]

/-- Witness for C8: submitting the reversed index pair `[1, 0]` at the swap
step (indices `[0, 1]`) of the bubble trace of `[2, 1]` is accepted. -/
theorem claim_C8_witness :
    engineValidate AlgKey.bubble (engineGenerate AlgKey.bubble [2, 1]).1 1
      ⟨StepType.swap, [1, 0], none⟩ = true :=
  (claim_C8 AlgKey.bubble [2, 1] 1
      (createStep StepType.swap [0, 1] [2, 1] true)
      ⟨StepType.swap, [1, 0], none⟩ 1 0 (by decide)
      (by rw [show (engineGenerate AlgKey.bubble [2, 1]).1 =
            (bubbleGenerateSteps [2, 1]).1 from rfl, bubbleSteps21]
          rfl)
      rfl rfl).mpr ⟨rfl, Or.inr rfl⟩
